import Mathlib

/-!
Verification of the shielded-transaction construction engine of the
privacy-cash API (key derivation, UTXO model, encryption framing, input
selection, fee logic, zero-tree paths, wire serialization and nullifier
program-address derivation), as a shallow embedding in Lean.

Strings of the source are embedded as lists of characters, buffers as
lists of natural numbers (bytes), arbitrary-precision integers (BN) as
Nat or Int, and JavaScript floating-point fee arithmetic as exact
rational arithmetic.  The Poseidon hash, the keypair signature, AES-GCM,
AES-CTR, HMAC-SHA256 and program-address derivation are external
libraries, taken as parameters of the definitions.
-/

namespace PrivacyCash

/-- Source strings are modelled as lists of characters. -/
abbrev Str := List Char

/-- Buffers are modelled as lists of bytes (naturals below 256). -/
abbrev Bytes := List Nat

/-- Conversion from a Lean string literal to the model representation. -/
def str (s : String) : Str := s.data

/-- Decimal digit character, as produced when a number is interpolated
into a template string. -/
def digitChar (n : Nat) : Char := Char.ofNat (48 + n)

/-- Fuel-indexed decimal rendering; the fuel strictly exceeds the value
at every call, so it is never exhausted. -/
def natToCharsCore (fuel n : Nat) : Str :=
  match fuel with
  | 0 => []
  | fuel + 1 =>
    if n < 10 then [digitChar n]
    else natToCharsCore fuel (n / 10) ++ [digitChar (n % 10)]

/-- Decimal rendering of a natural number (the model of BN.toString(10)
and of template-string interpolation of a number). -/
def natToChars (n : Nat) : Str := natToCharsCore (n + 1) n

theorem natToCharsCore_fuel_irrel (n : Nat) : ∀ f1 f2, n < f1 → n < f2 →
    natToCharsCore f1 n = natToCharsCore f2 n := by
  induction n using Nat.strong_induction_on with
  | _ n ih =>
    intro f1 f2 h1 h2
    match f1, f2 with
    | g1 + 1, g2 + 1 =>
      simp only [natToCharsCore]
      by_cases h10 : n < 10
      · simp [h10]
      · have hn : 0 < n := by omega
        have hdiv : n / 10 < n := Nat.div_lt_self hn (by norm_num)
        simp only [h10, if_false]
        rw [ih (n / 10) hdiv g1 g2 (by omega) (by omega)]

/-- Recursive unfolding of the decimal rendering. -/
theorem natToChars_unfold (n : Nat) :
    natToChars n = if n < 10 then [digitChar n]
      else natToChars (n / 10) ++ [digitChar (n % 10)] := by
  have hstep : natToCharsCore (n + 1) n
      = if n < 10 then [digitChar n]
        else natToCharsCore n (n / 10) ++ [digitChar (n % 10)] := rfl
  by_cases h10 : n < 10
  · rw [natToChars, hstep, if_pos h10, if_pos h10]
  · have hn : 0 < n := by omega
    have hdiv : n / 10 < n := Nat.div_lt_self hn (by norm_num)
    rw [natToChars, hstep, if_neg h10, if_neg h10, natToChars,
      natToCharsCore_fuel_irrel (n / 10) n (n / 10 + 1) (by omega) (by omega)]

/-- One step of decimal parsing: accumulate a digit, failing on any
non-digit character. -/
def pushDigit (acc : Option Nat) (c : Char) : Option Nat :=
  match acc, (if 48 ≤ c.toNat ∧ c.toNat ≤ 57 then some (c.toNat - 48) else none) with
  | some a, some d => some (a * 10 + d)
  | _, _ => none

/-- Parse a run of decimal digits. -/
def parseDigits (l : Str) : Option Nat := l.foldl pushDigit (some 0)

/-- Decimal parse of a non-empty digit string (the model of the BN
string constructor on base-10 input; non-decimal input is rejected). -/
def charsToNat? (l : Str) : Option Nat :=
  if l = [] then none else parseDigits l

/-- Model of the JavaScript Number conversion on a string, restricted to
the integral strings this engine produces: the empty string converts to
0, a digit string to its value, and anything else to NaN (here none). -/
def jsNumber? (l : Str) : Option Nat :=
  if l = [] then some 0 else parseDigits l

/-- Split a character list at every occurrence of a separator character
(the model of String.prototype.split with a one-character separator). -/
def splitOnChar (sep : Char) : Str → List Str
  | [] => [[]]
  | c :: cs =>
    if c = sep then [] :: splitOnChar sep cs
    else
      match splitOnChar sep cs with
      | [] => [[c]]
      | p :: ps => (c :: p) :: ps

/-- A spending keypair: the engine only reads its public and private
field elements (rendered as strings), so it is embedded as that pair. -/
structure Keypair where
  privkey : Str
  pubkey : Str
deriving DecidableEq, Repr

/-- The short system-program mint string used as the native-asset
sentinel throughout the source. -/
def solMintShort : Str := str "11111111111111111111111111111112"

/-- A shielded UTXO, from src/src/services/models/utxo.ts. -/
structure Utxo where
  amount : Nat
  keypair : Keypair
  blinding : Nat
  index : Nat
  mintAddress : Str
  version : Str
deriving DecidableEq, Repr

/-- The optional constructor parameters of the Utxo class. -/
structure UtxoParams where
  amount : Option Nat := none
  keypair : Keypair
  blinding : Option Nat := none
  index : Option Nat := none
  mintAddress : Option Str := none
  version : Option Str := none

/-- The Utxo constructor: amount defaults to 0, index defaults to 0,
mint defaults to the native sentinel, version defaults to v2, and a
missing blinding is drawn at random (the random draw is a parameter). -/
def mkUtxo (randomBlinding : Nat) (p : UtxoParams) : Utxo :=
  { amount := p.amount.getD 0
    keypair := p.keypair
    blinding := p.blinding.getD randomBlinding
    index := p.index.getD 0
    mintAddress := p.mintAddress.getD solMintShort
    version := p.version.getD (str "v2") }

/-- getMintAddressField of the Utxo class: both branches of the source
return the stored mint string unchanged. -/
def Utxo.getMintAddressField (u : Utxo) : Str :=
  if u.mintAddress = solMintShort then u.mintAddress else u.mintAddress

/-- getCommitment: Poseidon hash of amount, owner public key, blinding
and mint field. -/
def Utxo.getCommitment (poseidon : List Str → Str) (u : Utxo) : Str :=
  poseidon [natToChars u.amount, u.keypair.pubkey, natToChars u.blinding, u.getMintAddressField]

/-- getNullifier: Poseidon hash of the commitment, the stored index and
the owner signature over commitment and index.  The source computes this
unconditionally from the stored index. -/
def Utxo.getNullifier (poseidon : List Str → Str) (sign : Str → Str → Str → Str)
    (u : Utxo) : Str :=
  let commitment := u.getCommitment poseidon
  poseidon [commitment, natToChars u.index, sign u.keypair.privkey commitment (natToChars u.index)]

/-- Error vocabulary used by the specification for the nullifier. -/
inductive UtxoError where
  | missingIndex
deriving DecidableEq, Repr

/-- Modelled from the spec: the specification requires getNullifier to
fail with MissingIndex when the UTXO was never assigned a tree position
(an index was never supplied); this fallible variant is absent from the
source and is reconstructed here from the words of the spec for
comparison with the source behaviour. -/
def specGetNullifier (poseidon : List Str → Str) (sign : Str → Str → Str → Str)
    (randomBlinding : Nat) (p : UtxoParams) : Except UtxoError Str :=
  match p.index with
  | none => .error .missingIndex
  | some _ => .ok (Utxo.getNullifier poseidon sign (mkUtxo randomBlinding p))

/-- The circuit Merkle tree depth. -/
def MERKLE_TREE_DEPTH : Nat := 26

/-- The zero-value chain of the Merkle tree: level 0 is the string 0 and
each further level hashes the previous level with itself. -/
def zeroValue (hash2 : Str → Str → Str) : Nat → Str
  | 0 => str "0"
  | i + 1 => hash2 (zeroValue hash2 i) (zeroValue hash2 i)

/-- computeZeroValues of the MerkleTree class: the zero values for
levels 0 through the tree depth. -/
def computeZeroValues (hash2 : Str → Str → Str) (levels : Nat) : List Str :=
  (List.range (levels + 1)).map (zeroValue hash2)

/-- getZeroPath of the MerkleTree class: the source fills the whole path
with the literal string 0 at every level. -/
def getZeroPath (levels : Nat) : List Str := List.replicate levels (str "0")

/-- Relayer fee configuration fields consumed by prepareWithdraw. -/
structure RelayerConfig where
  withdraw_fee_rate : ℚ
  withdraw_rent_fee : ℚ

def LAMPORTS_PER_SOL : Nat := 1000000000

/-- The withdrawal fee of prepareWithdraw: floor of the requested amount
times the fee rate plus one SOL worth of lamports times the rent fee. -/
def withdrawFeeInLamports (lamports : Int) (cfg : RelayerConfig) : Int :=
  Int.floor ((lamports : ℚ) * cfg.withdraw_fee_rate
    + (LAMPORTS_PER_SOL : ℚ) * cfg.withdraw_rent_fee)

/-- Input selection shared by prepareDeposit and prepareWithdraw: the
first element of the list and, when the list has a second element, that
second element, otherwise a zero-amount placeholder. -/
def selectFirstTwo (l : List Utxo) (placeholder : Utxo) : Utxo × Utxo :=
  match l with
  | [] => (placeholder, placeholder)
  | [u] => (u, placeholder)
  | u :: v :: _ => (u, v)

/-- The consolidation inputs chosen by prepareDeposit when the
reconstructed UTXO set is non-empty: the source takes the first and
second entries of the reconstructed list in the order it was returned,
with no sorting. -/
def prepareDepositInputs (existingUtxos : List Utxo) (placeholder : Utxo) : Utxo × Utxo :=
  selectFirstTwo existingUtxos placeholder

/-- Comparator order used by prepareWithdraw: sort by amount in
descending order. -/
def sortByAmountDesc (l : List Utxo) : List Utxo :=
  List.insertionSort (fun a b => b.amount ≤ a.amount) l

instance : IsTotal Utxo (fun a b => b.amount ≤ a.amount) :=
  ⟨fun a b => le_total b.amount a.amount⟩

instance : IsTrans Utxo (fun a b => b.amount ≤ a.amount) :=
  ⟨fun _ _ _ h1 h2 => le_trans h2 h1⟩

/-- The input pair chosen by prepareWithdraw: the first two entries of
the amount-descending sort of the reconstructed set. -/
def withdrawSelectInputs (l : List Utxo) (placeholder : Utxo) : Utxo × Utxo :=
  selectFirstTwo (sortByAmountDesc l) placeholder

/-- Errors raised by prepareWithdraw before proof generation. -/
inductive WithdrawError where
  | amountTooLowAfterFees
  | noBalance
  | insufficientBalance
deriving DecidableEq, Repr

/-- The withdrawal plan assembled by prepareWithdraw before proof
generation.  changeAmount is the amount of the first (change) output
UTXO and extAmount the signed external amount placed in the ExtData;
amountAfterFee is the payout returned in the metadata. -/
structure WithdrawPlan where
  firstInput : Utxo
  secondInput : Utxo
  changeAmount : Int
  amountAfterFee : Int
  extAmount : Int
  fee : Int
  inputMerklePathElements : List (List Str)
deriving DecidableEq, Repr

/-- The decision core of prepareWithdraw (src/src/services/privacy-cash.ts):
fee computation and the AmountTooLowAfterFees check come first, then the
reconstructed set is consulted, sorted descending by amount, the first
two entries (or a zero placeholder) are selected, the balance is
checked, and the change, payout, signed external amount and Merkle paths
are computed.  A zero-amount input receives the zero path; other inputs
receive the remotely fetched path (the fetch is a parameter). -/
def prepareWithdrawCore (cfg : RelayerConfig) (lamports : Int)
    (existingUtxos : List Utxo) (placeholderKeypair : Keypair)
    (placeholderBlinding : Nat) (fetchPath : Utxo → List Str) :
    Except WithdrawError WithdrawPlan :=
  let feeInLamports := withdrawFeeInLamports lamports cfg
  let amountAfterFee := lamports - feeInLamports
  if amountAfterFee ≤ 0 then .error .amountTooLowAfterFees
  else if existingUtxos = [] then .error .noBalance
  else
    let placeholder := mkUtxo placeholderBlinding { keypair := placeholderKeypair, amount := some 0 }
    let sel := withdrawSelectInputs existingUtxos placeholder
    let firstInput := sel.1
    let secondInput := sel.2
    let totalInputAmount : Int := (firstInput.amount : Int) + (secondInput.amount : Int)
    if totalInputAmount < lamports then .error .insufficientBalance
    else
      .ok { firstInput := firstInput
            secondInput := secondInput
            changeAmount := totalInputAmount - amountAfterFee - feeInLamports
            amountAfterFee := amountAfterFee
            extAmount := -amountAfterFee
            fee := feeInLamports
            inputMerklePathElements :=
              [firstInput, secondInput].map
                (fun u => if u.amount = 0 then getZeroPath MERKLE_TREE_DEPTH else fetchPath u) }

instance {ε α : Type _} [DecidableEq ε] [DecidableEq α] : DecidableEq (Except ε α)
  | .ok a, .ok b =>
    if h : a = b then .isTrue (by rw [h]) else .isFalse (by simp [h])
  | .ok _, .error _ => .isFalse (by simp)
  | .error _, .ok _ => .isFalse (by simp)
  | .error a, .error b =>
    if h : a = b then .isTrue (by rw [h]) else .isFalse (by simp [h])

/-- Characterisation of a successful run of the prepareWithdraw decision
core: the fee is the configured fee, the payout is the request minus the
fee, the signed external amount is its negation, the change output
amount is the selected input total minus the request, the inputs are the
amount-descending selection, and each zero-amount input receives the
zero path. -/
theorem prepareWithdrawCore_ok_spec {cfg : RelayerConfig} {lamports : Int}
    {l : List Utxo} {kp : Keypair} {b : Nat} {f : Utxo → List Str} {p : WithdrawPlan}
    (h : prepareWithdrawCore cfg lamports l kp b f = .ok p) :
    p.fee = withdrawFeeInLamports lamports cfg
    ∧ p.amountAfterFee = lamports - p.fee
    ∧ p.extAmount = -(lamports - p.fee)
    ∧ p.changeAmount = (p.firstInput.amount : Int) + (p.secondInput.amount : Int) - lamports
    ∧ (p.firstInput, p.secondInput)
        = withdrawSelectInputs l (mkUtxo b { keypair := kp, amount := some 0 })
    ∧ p.inputMerklePathElements
        = [p.firstInput, p.secondInput].map
            (fun u => if u.amount = 0 then getZeroPath MERKLE_TREE_DEPTH else f u) := by
  simp only [prepareWithdrawCore] at h
  split_ifs at h with h1 h2 h3
  all_goals first
  | exact Except.noConfusion h
  | (rw [Except.ok.injEq] at h
     subst h
     refine ⟨rfl, rfl, rfl, ?_, rfl, rfl⟩
     simp only
     ring)

/-- Concrete keypair fixture for evaluation. -/
def kpA : Keypair := ⟨str "ka", str "KA"⟩

def uA5 : Utxo := mkUtxo 1 { keypair := kpA, amount := some 5, index := some 0 }

def uB10 : Utxo := mkUtxo 2 { keypair := kpA, amount := some 10, index := some 1 }

def uC20 : Utxo := mkUtxo 3 { keypair := kpA, amount := some 20, index := some 2 }

def u600 : Utxo := mkUtxo 4 { keypair := kpA, amount := some 600, index := some 3 }

def u400 : Utxo := mkUtxo 5 { keypair := kpA, amount := some 400, index := some 4 }

/-- Zero-amount placeholder fixture (what prepareWithdraw builds when the
set has a single entry, with placeholder blinding 0). -/
def phU : Utxo := mkUtxo 0 { keypair := kpA, amount := some 0 }

/-- Fee configuration fixture: zero rate and a rent fee worth exactly 35
lamports, so the computed fee is 35. -/
def cfg35 : RelayerConfig := ⟨0, 35 / 1000000000⟩

theorem withdrawFee_cfg35 : withdrawFeeInLamports 400 cfg35 = 35 := by
  norm_num [withdrawFeeInLamports, cfg35, LAMPORTS_PER_SOL]

/-- C1 counterexample: on the scenario of the claim (selected inputs
total 1000, requested amount 400, computed fee 35) the code produces a
change output of 600 and a signed external amount of -365, not the
claimed 565 and -400. -/
theorem c1_counterexample :
    (prepareWithdrawCore cfg35 400 [u600, u400] kpA 0 (fun _ => [])).map
        (fun p => (p.changeAmount, p.extAmount)) = .ok (600, -365)
    ∧ ¬ (((600 : Int), (-365 : Int)) = ((565 : Int), (-400 : Int))) := by
  constructor
  · simp only [prepareWithdrawCore, withdrawFee_cfg35]
    decide
  · decide

/-- C1 (amended): in any withdrawal whose two selected inputs total 1000
units, with requested amount 400 and computed fee 35, the change output
amount is 1000 - (400 - 35) - 35 = 600 (the input total minus the
requested amount), the signed external amount is -(400 - 35) = -365, and
the payout is 365. -/
theorem c1_withdraw_scenario (cfg : RelayerConfig) (existing : List Utxo)
    (kp : Keypair) (b : Nat) (f : Utxo → List Str) (p : WithdrawPlan)
    (h : prepareWithdrawCore cfg 400 existing kp b f = .ok p)
    (hfee : p.fee = 35)
    (htotal : (p.firstInput.amount : Int) + (p.secondInput.amount : Int) = 1000) :
    p.changeAmount = 600 ∧ p.extAmount = -365 ∧ p.amountAfterFee = 365 := by
  obtain ⟨hf, ha, he, hc, _, _⟩ := prepareWithdrawCore_ok_spec h
  rw [htotal] at hc
  rw [hfee] at ha he
  refine ⟨?_, ?_, ?_⟩ <;> omega

/-- The plan produced by the concrete run used to witness C1. -/
def demoPlan : WithdrawPlan := ⟨u600, u400, 600, 365, -365, 35, [[], []]⟩

theorem c1_withdraw_scenario_witness :
    demoPlan.changeAmount = 600 ∧ demoPlan.extAmount = -365
      ∧ demoPlan.amountAfterFee = 365 :=
  c1_withdraw_scenario cfg35 [u600, u400] kpA 0 (fun _ => []) demoPlan
    (by simp only [prepareWithdrawCore, withdrawFee_cfg35]; decide)
    (by decide) (by decide)

/-- C5: for a withdrawal of amount A at fee rate r with a fixed rent fee
of frent lamports, the computed fee is floor(A * r) + frent and the
payout is A - fee; and prepareWithdraw raises AmountTooLowAfterFees
exactly when the payout is non-positive, independently of the tree and
UTXO state (the reconstructed set is universally quantified and the
check precedes every use of it). -/
theorem c5_fee_and_gate (cfg : RelayerConfig) (lamports : Int) (frent : Nat)
    (existing : List Utxo) (kp : Keypair) (b : Nat) (f : Utxo → List Str)
    (hfrent : (LAMPORTS_PER_SOL : ℚ) * cfg.withdraw_rent_fee = frent) :
    withdrawFeeInLamports lamports cfg
        = Int.floor ((lamports : ℚ) * cfg.withdraw_fee_rate) + frent
    ∧ ((prepareWithdrawCore cfg lamports existing kp b f
          = .error .amountTooLowAfterFees)
        ↔ lamports - withdrawFeeInLamports lamports cfg ≤ 0)
    ∧ (prepareWithdrawCore cfg lamports existing kp b f).map
          (fun p => (p.amountAfterFee, p.fee))
        = (prepareWithdrawCore cfg lamports existing kp b f).map
          (fun _ => (lamports - withdrawFeeInLamports lamports cfg,
            withdrawFeeInLamports lamports cfg)) := by
  refine ⟨?_, ?_, ?_⟩
  · rw [withdrawFeeInLamports, hfrent]
    rw [show ((frent : ℚ)) = ((frent : ℤ) : ℚ) by push_cast; ring]
    exact Int.floor_add_int _ _
  · simp only [prepareWithdrawCore]
    split_ifs with h1 h2 h3 <;> simp [h1]
  · cases hE : prepareWithdrawCore cfg lamports existing kp b f with
    | error e => rfl
    | ok p =>
      obtain ⟨hf, ha, _, _, _, _⟩ := prepareWithdrawCore_ok_spec hE
      simp only [Except.map]
      rw [ha, hf]

theorem c5_fee_and_gate_witness :
    withdrawFeeInLamports 10 ⟨1 / 4, 2⟩
      = Int.floor ((10 : ℚ) * (1 / 4)) + 2000000000 :=
  (c5_fee_and_gate ⟨1 / 4, 2⟩ 10 2000000000 [] kpA 0 (fun _ => [])
    (by norm_num [LAMPORTS_PER_SOL])).1

/-- Fixed hash function used to exhibit the zero-tree counterexample:
any hash with hash(0,0) different from the string 0 works. -/
def cHash (a b : Str) : Str := 'H' :: (a ++ b)

/-- C6 counterexample: the Merkle path supplied for a placeholder is the
literal string 0 at every level, so at level 1 it differs from the
precomputed zero-value chain zero[1] = Hash(zero[0], zero[0]) for a hash
function that does not map (0, 0) back to 0 (as Poseidon does not). -/
theorem c6_counterexample :
    (getZeroPath MERKLE_TREE_DEPTH).getD 1 [] = str "0"
    ∧ zeroValue cHash 1 ≠ str "0"
    ∧ (computeZeroValues cHash MERKLE_TREE_DEPTH).getD 1 [] = zeroValue cHash 1
    ∧ (getZeroPath MERKLE_TREE_DEPTH).getD 1 []
        ≠ (computeZeroValues cHash MERKLE_TREE_DEPTH).getD 1 [] := by
  refine ⟨by decide, by decide, ?_, by decide⟩
  decide

/-- C6 (amended): for a zero-amount placeholder input UTXO the path
supplied to the circuit is the all-zero path: the literal value 0 at
every one of the 26 levels; the hash-chained zero-value sequence is
precomputed by the tree but not used for this path. -/
theorem c6_zero_path (i : Nat) (hi : i < MERKLE_TREE_DEPTH)
    (cfg : RelayerConfig) (lamports : Int) (existing : List Utxo) (kp : Keypair)
    (b : Nat) (f : Utxo → List Str) (p : WithdrawPlan)
    (h : prepareWithdrawCore cfg lamports existing kp b f = .ok p)
    (h0 : p.secondInput.amount = 0) :
    p.inputMerklePathElements.getD 1 [] = List.replicate MERKLE_TREE_DEPTH (str "0")
    ∧ (getZeroPath MERKLE_TREE_DEPTH).getD i [] = str "0" := by
  obtain ⟨_, _, _, _, _, hpaths⟩ := prepareWithdrawCore_ok_spec h
  constructor
  · rw [hpaths]
    simp [h0, getZeroPath]
  · simp [getZeroPath, List.getD, List.getElem?_replicate, hi]

/-- The plan produced by a single-UTXO withdrawal, whose second input is
the zero placeholder. -/
def demoPlanSingle : WithdrawPlan :=
  ⟨u600, phU, 200, 365, -365, 35, [[], List.replicate MERKLE_TREE_DEPTH (str "0")]⟩

theorem c6_zero_path_witness :
    demoPlanSingle.inputMerklePathElements.getD 1 []
        = List.replicate MERKLE_TREE_DEPTH (str "0")
    ∧ (getZeroPath MERKLE_TREE_DEPTH).getD 0 [] = str "0" :=
  c6_zero_path 0 (by decide) cfg35 400 [u600] kpA 0 (fun _ => []) demoPlanSingle
    (by simp only [prepareWithdrawCore, withdrawFee_cfg35]; decide) (by decide)

/-- Concrete Poseidon stand-in for closed evaluations. -/
def pos3 : List Str → Str := fun l => 'H' :: l.flatten

/-- Concrete signature stand-in for closed evaluations. -/
def sgn3 : Str → Str → Str → Str := fun k c i => k ++ c ++ i

/-- C3 counterexample: for a UTXO constructed without an index, the
specification demands a MissingIndex failure, but the constructor
defaults the index to 0 and getNullifier silently computes the
nullifier at index 0 (the string rendered by natToChars 0). -/
theorem c3_counterexample :
    specGetNullifier pos3 sgn3 0 { keypair := kpA } = .error .missingIndex
    ∧ mkUtxo 0 { keypair := kpA } = mkUtxo 0 { keypair := kpA, index := some 0 }
    ∧ Utxo.getNullifier pos3 sgn3 (mkUtxo 0 { keypair := kpA })
        = pos3 [Utxo.getCommitment pos3 (mkUtxo 0 { keypair := kpA }), str "0",
            sgn3 (str "ka")
              (Utxo.getCommitment pos3 (mkUtxo 0 { keypair := kpA })) (str "0")] := by
  refine ⟨rfl, by decide, ?_⟩
  decide

/-- C3 (amended): getNullifier never fails: a UTXO that was never
assigned a tree position keeps the constructor default index 0 and its
nullifier is computed at index 0; for every UTXO with an owner keypair
and stored index the result is Hash(commitment, index,
Sign(owner.privkey, commitment, index)). -/
theorem c3_default_index (poseidon : List Str → Str)
    (sign : Str → Str → Str → Str) (r : Nat) (p : UtxoParams)
    (h : p.index = none) (u : Utxo) :
    (mkUtxo r p).index = 0
    ∧ Utxo.getNullifier poseidon sign (mkUtxo r p)
        = Utxo.getNullifier poseidon sign (mkUtxo r { p with index := some 0 })
    ∧ Utxo.getNullifier poseidon sign u
        = poseidon [u.getCommitment poseidon, natToChars u.index,
            sign u.keypair.privkey (u.getCommitment poseidon) (natToChars u.index)] := by
  have hmk : mkUtxo r p = mkUtxo r { p with index := some 0 } := by
    simp [mkUtxo, h]
  exact ⟨by simp [mkUtxo, h], by rw [hmk], rfl⟩

theorem c3_default_index_witness :
    (mkUtxo 0 { keypair := kpA } : Utxo).index = 0
    ∧ Utxo.getNullifier pos3 sgn3 (mkUtxo 0 { keypair := kpA })
        = Utxo.getNullifier pos3 sgn3 (mkUtxo 0 { keypair := kpA, index := some 0 })
    ∧ Utxo.getNullifier pos3 sgn3 uA5
        = pos3 [uA5.getCommitment pos3, natToChars uA5.index,
            sgn3 uA5.keypair.privkey (uA5.getCommitment pos3) (natToChars uA5.index)] :=
  c3_default_index pos3 sgn3 0 { keypair := kpA } rfl uA5

/-- C2 counterexample: with reconstructed set [5, 10, 20] (in log
order), prepareDeposit consolidates the first two entries, amounts 5 and
10, even though the largest unspent UTXO has amount 20: the deposit path
does not sort by amount. -/
theorem c2_counterexample :
    ((prepareDepositInputs [uA5, uB10, uC20] phU).1.amount,
        (prepareDepositInputs [uA5, uB10, uC20] phU).2.amount) = (5, 10)
    ∧ 20 ∈ [uA5, uB10, uC20].map Utxo.amount
    ∧ 20 ∉ [(prepareDepositInputs [uA5, uB10, uC20] phU).1.amount,
        (prepareDepositInputs [uA5, uB10, uC20] phU).2.amount] := by
  refine ⟨by decide, by decide, by decide⟩

/-- C2 (amended): only prepareWithdraw selects the two largest-amount
unspent UTXOs (it sorts the reconstructed set by amount in descending
order and takes the first two, padding with a zero placeholder when only
one exists); prepareDeposit consolidates the first two UTXOs in the
order the reconstruction returned them, with the same placeholder rule. -/
theorem c2_selection :
    (∀ a b rest ph, prepareDepositInputs (a :: b :: rest) ph = (a, b))
    ∧ (∀ a ph, prepareDepositInputs [a] ph = (a, ph))
    ∧ (∀ l ph, 2 ≤ l.length →
        ∃ rest, l.Perm ((withdrawSelectInputs l ph).1
            :: (withdrawSelectInputs l ph).2 :: rest)
          ∧ (withdrawSelectInputs l ph).2.amount ≤ (withdrawSelectInputs l ph).1.amount
          ∧ ∀ u ∈ rest, u.amount ≤ (withdrawSelectInputs l ph).2.amount)
    ∧ (∀ a ph, withdrawSelectInputs [a] ph = (a, ph))
    ∧ (∀ cfg lam l kp b f p, prepareWithdrawCore cfg lam l kp b f = .ok p →
        (p.firstInput, p.secondInput)
          = withdrawSelectInputs l (mkUtxo b { keypair := kp, amount := some 0 })) := by
  refine ⟨fun a b rest ph => rfl, fun a ph => rfl, ?_, fun a ph => rfl, ?_⟩
  · intro l ph h2
    have hperm : (sortByAmountDesc l).Perm l := List.perm_insertionSort _ l
    have hsorted : List.Sorted (fun a b => b.amount ≤ a.amount) (sortByAmountDesc l) :=
      List.sorted_insertionSort _ l
    have hlen : 2 ≤ (sortByAmountDesc l).length := by
      rw [hperm.length_eq]; exact h2
    obtain ⟨x, y, t, hs⟩ : ∃ x y t, sortByAmountDesc l = x :: y :: t := by
      rcases hc1 : sortByAmountDesc l with _ | ⟨x, _ | ⟨y, t⟩⟩
      · rw [hc1] at hlen; simp at hlen
      · rw [hc1] at hlen; simp at hlen
      · exact ⟨x, y, t, rfl⟩
    rw [hs] at hperm hsorted
    rw [List.sorted_cons, List.sorted_cons] at hsorted
    refine ⟨t, ?_, ?_, ?_⟩
    · have : withdrawSelectInputs l ph = (x, y) := by
        rw [withdrawSelectInputs, hs]; rfl
      rw [this]
      exact hperm.symm
    · have : withdrawSelectInputs l ph = (x, y) := by
        rw [withdrawSelectInputs, hs]; rfl
      rw [this]
      exact hsorted.1 y (by simp)
    · have : withdrawSelectInputs l ph = (x, y) := by
        rw [withdrawSelectInputs, hs]; rfl
      rw [this]
      exact fun u hu => hsorted.2.1 u hu
  · intro cfg lam l kp b f p h
    exact (prepareWithdrawCore_ok_spec h).2.2.2.2.1

theorem c2_selection_witness :
    prepareDepositInputs [uA5, uB10] phU = (uA5, uB10)
    ∧ ∃ rest, [uA5, uB10, uC20].Perm
          ((withdrawSelectInputs [uA5, uB10, uC20] phU).1
            :: (withdrawSelectInputs [uA5, uB10, uC20] phU).2 :: rest)
        ∧ (withdrawSelectInputs [uA5, uB10, uC20] phU).2.amount
            ≤ (withdrawSelectInputs [uA5, uB10, uC20] phU).1.amount
        ∧ ∀ u ∈ rest, u.amount ≤ (withdrawSelectInputs [uA5, uB10, uC20] phU).2.amount :=
  ⟨c2_selection.1 uA5 uB10 [] phU, c2_selection.2.2.1 [uA5, uB10, uC20] phU (by decide)⟩

/-- Derived key material held by the EncryptionService after
deriveEncryptionKeyFromSignature has run. -/
structure EncryptionKeys where
  encryptionKeyV1 : Bytes
  encryptionKeyV2 : Bytes
  utxoPrivateKeyV1 : Str
  utxoPrivateKeyV2 : Str
deriving DecidableEq, Repr

/-- deriveEncryptionKeyFromSignature: v1 keeps the first 31 signature
bytes and seeds the v1 spending key with SHA-256 of them rendered in
hex; v2 keys off Keccak-256 of the signature and seeds the v2 spending
key with a second Keccak-256.  The hash functions and the hex rendering
are parameters. -/
def deriveEncryptionKeyFromSignature (sha256 keccak256 : Bytes → Bytes)
    (hex : Bytes → Str) (signature : Bytes) : EncryptionKeys :=
  { encryptionKeyV1 := signature.take 31
    encryptionKeyV2 := keccak256 signature
    utxoPrivateKeyV1 := str "0x" ++ hex (sha256 (signature.take 31))
    utxoPrivateKeyV2 := str "0x" ++ hex (keccak256 (keccak256 signature)) }

/-- The fixed 8-byte v2 version tag. -/
def ENCRYPTION_VERSION_V2 : Bytes := [0, 0, 0, 0, 0, 0, 0, 2]

/-- encrypt: version tag, then the random IV, then the AES-256-GCM auth
tag over the ciphertext, then the ciphertext.  The cipher and its tag
are parameters (keyed by the v2 key and the IV). -/
def encrypt (gcmEnc gcmTag : Bytes → Bytes → Bytes → Bytes)
    (K : EncryptionKeys) (iv data : Bytes) : Bytes :=
  let encryptedData := gcmEnc K.encryptionKeyV2 iv data
  ENCRYPTION_VERSION_V2 ++ iv ++ gcmTag K.encryptionKeyV2 iv encryptedData ++ encryptedData

/-- decryptV2: bytes 8..20 are the IV, 20..36 the auth tag, the rest the
ciphertext; an auth-tag mismatch aborts with an error (the model of the
AEAD final() throwing). -/
def decryptV2 (gcmDec gcmTag : Bytes → Bytes → Bytes → Bytes)
    (K : EncryptionKeys) (encryptedData : Bytes) : Except Str Bytes :=
  let iv := (encryptedData.drop 8).take 12
  let authTag := (encryptedData.drop 20).take 16
  let data := encryptedData.drop 36
  if gcmTag K.encryptionKeyV2 iv data = authTag then
    .ok (gcmDec K.encryptionKeyV2 iv data)
  else .error (str "Unsupported state or unable to authenticate data")

/-- decryptV1: bytes 0..16 are the IV, 16..32 the auth tag, the rest the
ciphertext; the tag is an HMAC over IV and ciphertext keyed by bytes
16..31 of the v1 key, truncated to 16 bytes and compared in constant
time; on a match the stream cipher keyed by the first 16 bytes of the v1
key decrypts. -/
def decryptV1 (ctrDec : Bytes → Bytes → Bytes → Bytes)
    (hmacSha256 : Bytes → Bytes → Bytes)
    (K : EncryptionKeys) (encryptedData : Bytes) : Except Str Bytes :=
  let iv := encryptedData.take 16
  let authTag := (encryptedData.drop 16).take 16
  let data := encryptedData.drop 32
  let hmacKey := (K.encryptionKeyV1.drop 16).take 15
  let calculatedTag := (hmacSha256 hmacKey (iv ++ data)).take 16
  if authTag = calculatedTag then
    .ok (ctrDec (K.encryptionKeyV1.take 16) iv data)
  else .error (str "Decryption failed - invalid key or corrupted data")

/-- decrypt dispatches on the 8-byte version tag: v2 when present,
otherwise the legacy v1 path. -/
def decrypt (gcmDec gcmTag ctrDec : Bytes → Bytes → Bytes → Bytes)
    (hmacSha256 : Bytes → Bytes → Bytes)
    (K : EncryptionKeys) (encryptedData : Bytes) : Except Str Bytes :=
  if 8 ≤ encryptedData.length ∧ encryptedData.take 8 = ENCRYPTION_VERSION_V2 then
    decryptV2 gcmDec gcmTag K encryptedData
  else decryptV1 ctrDec hmacSha256 K encryptedData

/-- getEncryptionKeyVersion: v2 exactly when the buffer carries the
8-byte v2 tag. -/
def getEncryptionKeyVersion (encryptedData : Bytes) : Str :=
  if 8 ≤ encryptedData.length ∧ encryptedData.take 8 = ENCRYPTION_VERSION_V2 then str "v2"
  else str "v1"

/-- getUtxoPrivateKeyWithVersion: the v1 spending key for version v1,
the v2 spending key otherwise. -/
def getUtxoPrivateKeyWithVersion (K : EncryptionKeys) (version : Str) : Str :=
  if version = str "v1" then K.utxoPrivateKeyV1 else K.utxoPrivateKeyV2

/-- Modelled from the spec: the v1 encryptor is absent from the source
(the engine only decrypts v1); section 4.5 of the spec gives the format
IV(16) || authTag(16) || ciphertext with the HMAC computed over IV and
ciphertext and truncated to 16 bytes. -/
def encryptV1 (ctrEnc : Bytes → Bytes → Bytes → Bytes)
    (hmacSha256 : Bytes → Bytes → Bytes)
    (K : EncryptionKeys) (iv data : Bytes) : Bytes :=
  let ct := ctrEnc (K.encryptionKeyV1.take 16) iv data
  iv ++ (hmacSha256 ((K.encryptionKeyV1.drop 16).take 15) (iv ++ ct)).take 16 ++ ct

def charsToBytes (l : Str) : Bytes := l.map Char.toNat

def bytesToChars (b : Bytes) : Str := b.map Char.ofNat

/-- The delimited serialization of a UTXO before encryption:
amount, blinding, index and mint joined by the pipe character. -/
def utxoPlain (u : Utxo) : Str :=
  natToChars u.amount
    ++ '|' :: (natToChars u.blinding ++ '|' :: (natToChars u.index ++ '|' :: u.mintAddress))

/-- encryptUtxo: serialize then encrypt (always the v2 path). -/
def encryptUtxo (gcmEnc gcmTag : Bytes → Bytes → Bytes → Bytes)
    (K : EncryptionKeys) (iv : Bytes) (u : Utxo) : Bytes :=
  encrypt gcmEnc gcmTag K iv (charsToBytes (utxoPlain u))

/-- Modelled from the spec alongside `encryptV1`: a v1-format encryption
of a serialized UTXO, for the legacy round-trip. -/
def encryptUtxoV1 (ctrEnc : Bytes → Bytes → Bytes → Bytes)
    (hmacSha256 : Bytes → Bytes → Bytes)
    (K : EncryptionKeys) (iv : Bytes) (u : Utxo) : Bytes :=
  encryptV1 ctrEnc hmacSha256 K iv (charsToBytes (utxoPlain u))

/-- The result of decryptUtxo: the parsed fields together with the
private key selected for the reconstructed keypair.  The index is the
JavaScript Number conversion of the index field (none models NaN). -/
structure ParsedUtxo where
  amount : Nat
  blinding : Nat
  index : Option Nat
  mintAddress : Str
  privkey : Str
  version : Str
deriving DecidableEq, Repr

/-- decryptUtxo: decrypt, split the plaintext on the pipe character,
fail with the invalid-format error unless there are exactly four parts,
then parse the fields and select the spending key matching the
ciphertext version.  A non-decimal amount or blinding trips the BN
constructor assertion, a distinct error. -/
def decryptUtxo (gcmDec gcmTag ctrDec : Bytes → Bytes → Bytes → Bytes)
    (hmacSha256 : Bytes → Bytes → Bytes)
    (K : EncryptionKeys) (encryptedData : Bytes) : Except Str ParsedUtxo :=
  let utxoVersion := getEncryptionKeyVersion encryptedData
  match decrypt gcmDec gcmTag ctrDec hmacSha256 K encryptedData with
  | .error e => .error e
  | .ok decrypted =>
    match splitOnChar '|' (bytesToChars decrypted) with
    | [amount, blinding, index, mintAddress] =>
      match charsToNat? amount, charsToNat? blinding with
      | some a, some b =>
        .ok { amount := a, blinding := b, index := jsNumber? index
              mintAddress := mintAddress
              privkey := getUtxoPrivateKeyWithVersion K utxoVersion
              version := utxoVersion }
      | _, _ => .error (str "BN assertion failed")
    | _ => .error (str "Invalid UTXO format")

theorem digitChar_toNat (d : Nat) (h : d < 10) : (digitChar d).toNat = 48 + d := by
  interval_cases d <;> decide

theorem digitChar_ne_pipe (d : Nat) (h : d < 10) : digitChar d ≠ '|' := by
  interval_cases d <;> decide

theorem natToChars_ne_nil (n : Nat) : natToChars n ≠ [] := by
  rw [natToChars_unfold]
  split_ifs <;> simp

theorem pipe_not_mem_natToChars (n : Nat) : '|' ∉ natToChars n := by
  induction n using Nat.strong_induction_on with
  | _ n ih =>
    rw [natToChars_unfold]
    by_cases h10 : n < 10
    · simp only [if_pos h10, List.mem_singleton]
      exact fun he => digitChar_ne_pipe n h10 he.symm
    · simp only [if_neg h10, List.mem_append, List.mem_singleton]
      rintro (hmem | heq)
      · exact ih (n / 10) (Nat.div_lt_self (by omega) (by norm_num)) hmem
      · exact digitChar_ne_pipe (n % 10) (Nat.mod_lt n (by norm_num)) heq.symm

theorem bytesToChars_charsToBytes (l : Str) : bytesToChars (charsToBytes l) = l := by
  induction l with
  | nil => rfl
  | cons c cs ih =>
    simp only [bytesToChars, charsToBytes, List.map_cons] at *
    rw [ih, Char.ofNat_toNat]

theorem pushDigit_digitChar (a d : Nat) (h : d < 10) :
    pushDigit (some a) (digitChar d) = some (a * 10 + d) := by
  simp only [pushDigit, digitChar_toNat d h]
  rw [if_pos (by omega)]
  norm_num

theorem foldl_pushDigit_natToChars (n : Nat) : ∀ a : Nat,
    (natToChars n).foldl pushDigit (some a)
      = some (a * 10 ^ (natToChars n).length + n) := by
  induction n using Nat.strong_induction_on with
  | _ n ih =>
    intro a
    rw [natToChars_unfold]
    by_cases h10 : n < 10
    · simp only [if_pos h10, List.foldl_cons, List.foldl_nil, List.length_singleton]
      rw [pushDigit_digitChar a n h10]
      norm_num
    · have hd : n / 10 < n := Nat.div_lt_self (by omega) (by norm_num)
      simp only [if_neg h10, List.foldl_append, List.foldl_cons, List.foldl_nil,
        List.length_append, List.length_singleton]
      rw [ih (n / 10) hd a, pushDigit_digitChar _ (n % 10) (Nat.mod_lt n (by norm_num))]
      congr 1
      have hmod : 10 * (n / 10) + n % 10 = n := Nat.div_add_mod n 10
      have hexp : 10 ^ ((natToChars (n / 10)).length + 1)
          = 10 ^ (natToChars (n / 10)).length * 10 := pow_succ 10 _
      rw [hexp]
      calc (a * 10 ^ (natToChars (n / 10)).length + n / 10) * 10 + n % 10
          = a * (10 ^ (natToChars (n / 10)).length * 10) + (10 * (n / 10) + n % 10) := by ring
        _ = a * (10 ^ (natToChars (n / 10)).length * 10) + n := by rw [hmod]

theorem parseDigits_natToChars (n : Nat) : parseDigits (natToChars n) = some n := by
  rw [parseDigits, foldl_pushDigit_natToChars n 0]
  norm_num

theorem charsToNat?_natToChars (n : Nat) : charsToNat? (natToChars n) = some n := by
  rw [charsToNat?, if_neg (natToChars_ne_nil n), parseDigits_natToChars]

theorem jsNumber?_natToChars (n : Nat) : jsNumber? (natToChars n) = some n := by
  rw [jsNumber?, if_neg (natToChars_ne_nil n), parseDigits_natToChars]

theorem splitOnChar_not_mem (sep : Char) (l : Str) (h : sep ∉ l) :
    splitOnChar sep l = [l] := by
  induction l with
  | nil => rfl
  | cons c cs ih =>
    have hc : ¬ (c = sep) := fun he => h (by simp [he])
    have hcs : sep ∉ cs := fun hmem => h (List.mem_cons_of_mem c hmem)
    simp only [splitOnChar, if_neg hc, ih hcs]

theorem splitOnChar_append (sep : Char) (a rest : Str) (h : sep ∉ a) :
    splitOnChar sep (a ++ sep :: rest) = a :: splitOnChar sep rest := by
  induction a with
  | nil =>
    simp [splitOnChar]
  | cons c cs ih =>
    have hc : ¬ (c = sep) := fun he => h (by simp [he])
    have hcs : sep ∉ cs := fun hmem => h (List.mem_cons_of_mem c hmem)
    simp only [List.cons_append, splitOnChar, if_neg hc, List.append_eq]
    rw [ih hcs]

theorem splitOnChar_utxoPlain (u : Utxo) (hm : '|' ∉ u.mintAddress) :
    splitOnChar '|' (utxoPlain u)
      = [natToChars u.amount, natToChars u.blinding, natToChars u.index, u.mintAddress] := by
  rw [utxoPlain, splitOnChar_append '|' _ _ (pipe_not_mem_natToChars _),
    splitOnChar_append '|' _ _ (pipe_not_mem_natToChars _),
    splitOnChar_append '|' _ _ (pipe_not_mem_natToChars _),
    splitOnChar_not_mem '|' _ hm]

theorem ENCRYPTION_VERSION_V2_length : ENCRYPTION_VERSION_V2.length = 8 := rfl

theorem getD_append_lt (l1 l2 : Bytes) (i : Nat) (h : i < l1.length) :
    (l1 ++ l2).getD i 0 = l1.getD i 0 := by
  rw [List.getD_eq_getElem?_getD, List.getD_eq_getElem?_getD, List.getElem?_append_left h]

theorem getD_append_ge (l1 l2 : Bytes) (i : Nat) (h : l1.length ≤ i) :
    (l1 ++ l2).getD i 0 = l2.getD (i - l1.length) 0 := by
  rw [List.getD_eq_getElem?_getD, List.getD_eq_getElem?_getD, List.getElem?_append_right h]

theorem set_ne_self_of_ne (l : Bytes) (i : Nat) (b : Nat) (hi : i < l.length)
    (hb : b ≠ l.getD i 0) : l.set i b ≠ l := by
  intro heq
  apply hb
  have h2 := congrArg (fun t => t.getD i 0) heq
  simp only [List.getD_eq_getElem?_getD, List.getElem?_set_self hi] at h2
  rw [List.getD_eq_getElem?_getD]
  simpa using h2

theorem drop_set_of_lt (l : Bytes) (i n : Nat) (b : Nat) (h : i < n) :
    (l.set i b).drop n = l.drop n := by
  apply List.ext_getElem?
  intro j
  rw [List.getElem?_drop, List.getElem?_drop, List.getElem?_set_ne (by omega)]

theorem take_set_of_le (l : Bytes) (i n : Nat) (b : Nat) (h : n ≤ i) :
    (l.set i b).take n = l.take n := by
  apply List.ext_getElem?
  intro j
  rw [List.getElem?_take, List.getElem?_take]
  split_ifs with hj
  · rw [List.getElem?_set_ne (by omega)]
  · rfl

theorem take_set_of_lt (l : Bytes) (i n : Nat) (b : Nat) (h : i < n) :
    (l.set i b).take n = (l.take n).set i b := by
  apply List.ext_getElem?
  intro j
  rw [List.getElem?_take, List.getElem?_set, List.getElem?_set, List.getElem?_take,
    List.length_take]
  simp only [lt_inf_iff]
  split_ifs <;> first | rfl | omega

theorem v2_layout (iv tag ct : Bytes) (hiv : iv.length = 12) (htag : tag.length = 16) :
    (ENCRYPTION_VERSION_V2 ++ iv ++ tag ++ ct).take 8 = ENCRYPTION_VERSION_V2
    ∧ ((ENCRYPTION_VERSION_V2 ++ iv ++ tag ++ ct).drop 8).take 12 = iv
    ∧ ((ENCRYPTION_VERSION_V2 ++ iv ++ tag ++ ct).drop 20).take 16 = tag
    ∧ (ENCRYPTION_VERSION_V2 ++ iv ++ tag ++ ct).drop 36 = ct
    ∧ (ENCRYPTION_VERSION_V2 ++ iv ++ tag ++ ct).length = 36 + ct.length := by
  have hassoc : ENCRYPTION_VERSION_V2 ++ iv ++ tag ++ ct
      = ENCRYPTION_VERSION_V2 ++ (iv ++ (tag ++ ct)) := by
    simp [List.append_assoc]
  have hd8 : (ENCRYPTION_VERSION_V2 ++ iv ++ tag ++ ct).drop 8 = iv ++ (tag ++ ct) := by
    rw [hassoc]
    exact List.drop_left' ENCRYPTION_VERSION_V2_length
  have hd20 : (ENCRYPTION_VERSION_V2 ++ iv ++ tag ++ ct).drop 20 = tag ++ ct := by
    have h2 : (ENCRYPTION_VERSION_V2 ++ iv ++ tag ++ ct).drop 20
        = ((ENCRYPTION_VERSION_V2 ++ iv ++ tag ++ ct).drop 8).drop 12 :=
      (List.drop_drop 12 8 _).symm
    rw [h2, hd8]
    exact List.drop_left' hiv
  have hd36 : (ENCRYPTION_VERSION_V2 ++ iv ++ tag ++ ct).drop 36 = ct := by
    have h2 : (ENCRYPTION_VERSION_V2 ++ iv ++ tag ++ ct).drop 36
        = ((ENCRYPTION_VERSION_V2 ++ iv ++ tag ++ ct).drop 20).drop 16 :=
      (List.drop_drop 16 20 _).symm
    rw [h2, hd20]
    exact List.drop_left' htag
  refine ⟨?_, ?_, ?_, hd36, ?_⟩
  · rw [hassoc]
    exact List.take_left' ENCRYPTION_VERSION_V2_length
  · rw [hd8]
    exact List.take_left' hiv
  · rw [hd20]
    exact List.take_left' htag
  · simp only [List.length_append, hiv, htag, ENCRYPTION_VERSION_V2_length]

theorem v1_layout (iv tag ct : Bytes) (hiv : iv.length = 16) (htag : tag.length = 16) :
    (iv ++ tag ++ ct).take 16 = iv
    ∧ ((iv ++ tag ++ ct).drop 16).take 16 = tag
    ∧ (iv ++ tag ++ ct).drop 32 = ct
    ∧ (iv ++ tag ++ ct).length = 32 + ct.length := by
  have hassoc : iv ++ tag ++ ct = iv ++ (tag ++ ct) := by
    simp [List.append_assoc]
  have hd16 : (iv ++ tag ++ ct).drop 16 = tag ++ ct := by
    rw [hassoc]
    exact List.drop_left' hiv
  have hd32 : (iv ++ tag ++ ct).drop 32 = ct := by
    have h2 : (iv ++ tag ++ ct).drop 32 = ((iv ++ tag ++ ct).drop 16).drop 16 :=
      (List.drop_drop 16 16 _).symm
    rw [h2, hd16]
    exact List.drop_left' htag
  refine ⟨?_, ?_, hd32, ?_⟩
  · rw [hassoc]
    exact List.take_left' hiv
  · rw [hd16]
    exact List.take_left' htag
  · simp only [List.length_append, hiv, htag]

theorem v2_getD (iv tag ct : Bytes) (hiv : iv.length = 12) (htag : tag.length = 16) (i : Nat) :
    (ENCRYPTION_VERSION_V2 ++ iv ++ tag ++ ct).getD i 0
      = if i < 8 then ENCRYPTION_VERSION_V2.getD i 0
        else if i < 20 then iv.getD (i - 8) 0
        else if i < 36 then tag.getD (i - 20) 0
        else ct.getD (i - 36) 0 := by
  have h1 : (ENCRYPTION_VERSION_V2 ++ iv).length = 20 := by
    simp [List.length_append, hiv, ENCRYPTION_VERSION_V2_length]
  have h2 : (ENCRYPTION_VERSION_V2 ++ iv ++ tag).length = 36 := by
    simp [List.length_append, hiv, htag, ENCRYPTION_VERSION_V2_length]
  split_ifs with c1 c2 c3
  · rw [getD_append_lt _ _ _ (by omega), getD_append_lt _ _ _ (by omega),
      getD_append_lt _ _ _ (by simp [ENCRYPTION_VERSION_V2_length]; omega)]
  · rw [getD_append_lt _ _ _ (by omega), getD_append_lt _ _ _ (by omega),
      getD_append_ge _ _ _ (by simp [ENCRYPTION_VERSION_V2_length]; omega),
      ENCRYPTION_VERSION_V2_length]
  · rw [getD_append_lt _ _ _ (by omega), getD_append_ge _ _ _ (by omega), h1]
  · rw [getD_append_ge _ _ _ (by omega), h2]

theorem v1_getD (iv tag ct : Bytes) (hiv : iv.length = 16) (htag : tag.length = 16) (i : Nat) :
    (iv ++ tag ++ ct).getD i 0
      = if i < 16 then iv.getD i 0
        else if i < 32 then tag.getD (i - 16) 0
        else ct.getD (i - 32) 0 := by
  have h1 : (iv ++ tag).length = 32 := by
    simp [List.length_append, hiv, htag]
  split_ifs with c1 c2
  · rw [getD_append_lt _ _ _ (by omega), getD_append_lt _ _ _ (by omega)]
  · rw [getD_append_lt _ _ _ (by omega), getD_append_ge _ _ _ (by omega), hiv]
  · rw [getD_append_ge _ _ _ (by omega), h1]

/-- decrypt dispatches purely on the 8-byte prefix: a buffer whose first
eight bytes are the v2 tag is at least eight bytes long. -/
theorem decrypt_dispatch (gcmDec gcmTag ctrDec : Bytes → Bytes → Bytes → Bytes)
    (hmacSha256 : Bytes → Bytes → Bytes) (K : EncryptionKeys) (c : Bytes) :
    decrypt gcmDec gcmTag ctrDec hmacSha256 K c
      = if c.take 8 = ENCRYPTION_VERSION_V2 then decryptV2 gcmDec gcmTag K c
        else decryptV1 ctrDec hmacSha256 K c := by
  rw [decrypt]
  by_cases h : c.take 8 = ENCRYPTION_VERSION_V2
  · have hlen : 8 ≤ c.length := by
      have h2 := congrArg List.length h
      rw [List.length_take, ENCRYPTION_VERSION_V2_length] at h2
      omega
    rw [if_pos ⟨hlen, h⟩, if_pos h]
  · rw [if_neg (fun hc => h hc.2), if_neg h]

theorem getEncryptionKeyVersion_dispatch (c : Bytes) :
    getEncryptionKeyVersion c
      = if c.take 8 = ENCRYPTION_VERSION_V2 then str "v2" else str "v1" := by
  rw [getEncryptionKeyVersion]
  by_cases h : c.take 8 = ENCRYPTION_VERSION_V2
  · have hlen : 8 ≤ c.length := by
      have h2 := congrArg List.length h
      rw [List.length_take, ENCRYPTION_VERSION_V2_length] at h2
      omega
    rw [if_pos ⟨hlen, h⟩, if_pos h]
  · rw [if_neg (fun hc => h hc.2), if_neg h]

/-- Round trip of the v2 framing: under the AEAD laws at this point
(the tag is 16 bytes, the IV 12 bytes, and decryption inverts
encryption), decrypt recovers the plaintext from encrypt. -/
theorem decrypt_encrypt (gcmEnc gcmDec gcmTag ctrDec : Bytes → Bytes → Bytes → Bytes)
    (hmacSha256 : Bytes → Bytes → Bytes) (K : EncryptionKeys) (iv data : Bytes)
    (hiv : iv.length = 12)
    (htag : (gcmTag K.encryptionKeyV2 iv (gcmEnc K.encryptionKeyV2 iv data)).length = 16)
    (hdec : gcmDec K.encryptionKeyV2 iv (gcmEnc K.encryptionKeyV2 iv data) = data) :
    decrypt gcmDec gcmTag ctrDec hmacSha256 K (encrypt gcmEnc gcmTag K iv data)
      = .ok data := by
  obtain ⟨hp, hiv', htag', hct, _⟩ :=
    v2_layout iv (gcmTag K.encryptionKeyV2 iv (gcmEnc K.encryptionKeyV2 iv data))
      (gcmEnc K.encryptionKeyV2 iv data) hiv htag
  have hc : encrypt gcmEnc gcmTag K iv data
      = ENCRYPTION_VERSION_V2 ++ iv
        ++ gcmTag K.encryptionKeyV2 iv (gcmEnc K.encryptionKeyV2 iv data)
        ++ gcmEnc K.encryptionKeyV2 iv data := rfl
  rw [hc, decrypt_dispatch, if_pos hp]
  simp only [decryptV2]
  rw [hiv', htag', hct, if_pos rfl, hdec]

/-- Round trip of the spec-modelled v1 framing: with a 16-byte IV whose
first eight bytes are not the v2 tag, an HMAC of at least 16 bytes, and
a stream cipher inverting itself at this point, decrypt recovers the
plaintext from the v1 encryptor. -/
theorem decrypt_encryptV1 (gcmDec gcmTag ctrEnc ctrDec : Bytes → Bytes → Bytes → Bytes)
    (hmacSha256 : Bytes → Bytes → Bytes) (K : EncryptionKeys) (iv data : Bytes)
    (hiv : iv.length = 16)
    (hpre : iv.take 8 ≠ ENCRYPTION_VERSION_V2)
    (hlen : 16 ≤ (hmacSha256 ((K.encryptionKeyV1.drop 16).take 15)
        (iv ++ ctrEnc (K.encryptionKeyV1.take 16) iv data)).length)
    (hctr : ctrDec (K.encryptionKeyV1.take 16) iv
        (ctrEnc (K.encryptionKeyV1.take 16) iv data) = data) :
    decrypt gcmDec gcmTag ctrDec hmacSha256 K (encryptV1 ctrEnc hmacSha256 K iv data)
      = .ok data := by
  have htlen : ((hmacSha256 ((K.encryptionKeyV1.drop 16).take 15)
      (iv ++ ctrEnc (K.encryptionKeyV1.take 16) iv data)).take 16).length = 16 := by
    rw [List.length_take]
    omega
  obtain ⟨hiv', htag', hct, _⟩ :=
    v1_layout iv
      ((hmacSha256 ((K.encryptionKeyV1.drop 16).take 15)
        (iv ++ ctrEnc (K.encryptionKeyV1.take 16) iv data)).take 16)
      (ctrEnc (K.encryptionKeyV1.take 16) iv data) hiv htlen
  have hc : encryptV1 ctrEnc hmacSha256 K iv data
      = iv ++ (hmacSha256 ((K.encryptionKeyV1.drop 16).take 15)
          (iv ++ ctrEnc (K.encryptionKeyV1.take 16) iv data)).take 16
        ++ ctrEnc (K.encryptionKeyV1.take 16) iv data := rfl
  have hpre2 : (encryptV1 ctrEnc hmacSha256 K iv data).take 8 ≠ ENCRYPTION_VERSION_V2 := by
    rw [hc, List.append_assoc, List.take_append_of_le_length (by omega)]
    exact hpre
  rw [decrypt_dispatch, if_neg hpre2]
  simp only [decryptV1]
  rw [hc, htag', hiv', hct, if_pos rfl, hctr]

/-- C9: every ciphertext the engine produces starts with the fixed
8-byte v2 version tag; getEncryptionKeyVersion classifies it as v2 and
decrypt takes the v2 branch on it; any buffer without the tag is routed
to the legacy v1 decryptor, which the engine can still run but never
feeds its own output into. -/
theorem c9_always_v2 (gcmEnc gcmDec gcmTag ctrDec : Bytes → Bytes → Bytes → Bytes)
    (hmacSha256 : Bytes → Bytes → Bytes) (K : EncryptionKeys) (iv data : Bytes) :
    (encrypt gcmEnc gcmTag K iv data).take 8 = ENCRYPTION_VERSION_V2
    ∧ getEncryptionKeyVersion (encrypt gcmEnc gcmTag K iv data) = str "v2"
    ∧ decrypt gcmDec gcmTag ctrDec hmacSha256 K (encrypt gcmEnc gcmTag K iv data)
        = decryptV2 gcmDec gcmTag K (encrypt gcmEnc gcmTag K iv data)
    ∧ ∀ c : Bytes, c.take 8 ≠ ENCRYPTION_VERSION_V2 →
        decrypt gcmDec gcmTag ctrDec hmacSha256 K c = decryptV1 ctrDec hmacSha256 K c := by
  have hp : (encrypt gcmEnc gcmTag K iv data).take 8 = ENCRYPTION_VERSION_V2 := by
    rw [show encrypt gcmEnc gcmTag K iv data
        = ENCRYPTION_VERSION_V2
          ++ (iv ++ (gcmTag K.encryptionKeyV2 iv (gcmEnc K.encryptionKeyV2 iv data)
            ++ gcmEnc K.encryptionKeyV2 iv data)) by simp [encrypt, List.append_assoc]]
    exact List.take_left' ENCRYPTION_VERSION_V2_length
  refine ⟨hp, ?_, ?_, ?_⟩
  · rw [getEncryptionKeyVersion_dispatch, if_pos hp]
  · rw [decrypt_dispatch, if_pos hp]
  · intro c hc
    rw [decrypt_dispatch, if_neg hc]

theorem c9_always_v2_witness :
    ((encrypt (fun _ _ d => d) (fun _ _ _ => List.replicate 16 0)
        ⟨List.replicate 31 5, [2], str "0xA", str "0xB"⟩ (List.replicate 12 7) [1, 2, 3]).take 8
      = ENCRYPTION_VERSION_V2)
    ∧ getEncryptionKeyVersion (encrypt (fun _ _ d => d) (fun _ _ _ => List.replicate 16 0)
        ⟨List.replicate 31 5, [2], str "0xA", str "0xB"⟩ (List.replicate 12 7) [1, 2, 3])
      = str "v2"
    ∧ decrypt (fun _ _ d => d) (fun _ _ _ => List.replicate 16 0) (fun _ _ d => d)
        (fun _ _ => [3])
        ⟨List.replicate 31 5, [2], str "0xA", str "0xB"⟩ [9]
      = decryptV1 (fun _ _ d => d) (fun _ _ => [3])
        ⟨List.replicate 31 5, [2], str "0xA", str "0xB"⟩ [9] := by
  obtain ⟨h1, h2, _, h4⟩ := c9_always_v2 (fun _ _ d => d) (fun _ _ d => d)
    (fun _ _ _ => List.replicate 16 0) (fun _ _ d => d) (fun _ _ => [3])
    ⟨List.replicate 31 5, [2], str "0xA", str "0xB"⟩ (List.replicate 12 7) [1, 2, 3]
  exact ⟨h1, h2, h4 [9] (by decide)⟩

/-- Tamper resistance of the v2 framing: altering any single byte of a
produced ciphertext makes decryption fail, provided the auth tag has no
collision at this point (true of the AEAD except with negligible
probability) and, for alterations of the version prefix, the legacy HMAC
check also fails (same caveat). -/
theorem decrypt_tamper_v2 (gcmEnc gcmDec gcmTag ctrDec : Bytes → Bytes → Bytes → Bytes)
    (hmacSha256 : Bytes → Bytes → Bytes) (K : EncryptionKeys) (iv data : Bytes)
    (hiv : iv.length = 12)
    (htag : (gcmTag K.encryptionKeyV2 iv (gcmEnc K.encryptionKeyV2 iv data)).length = 16)
    (htagInj : ∀ iv2 d2, iv2.length = 12 →
        gcmTag K.encryptionKeyV2 iv2 d2
          = gcmTag K.encryptionKeyV2 iv (gcmEnc K.encryptionKeyV2 iv data) →
        iv2 = iv ∧ d2 = gcmEnc K.encryptionKeyV2 iv data)
    (hv2v1 : ∀ m : Bytes,
        m.length = 16 + ((encrypt gcmEnc gcmTag K iv data).length - 32) →
        (hmacSha256 ((K.encryptionKeyV1.drop 16).take 15) m).take 16
          ≠ ((encrypt gcmEnc gcmTag K iv data).drop 16).take 16)
    (i b : Nat) (hi : i < (encrypt gcmEnc gcmTag K iv data).length)
    (hb : b ≠ (encrypt gcmEnc gcmTag K iv data).getD i 0) :
    ∃ e, decrypt gcmDec gcmTag ctrDec hmacSha256 K
        ((encrypt gcmEnc gcmTag K iv data).set i b) = .error e := by
  set ct := gcmEnc K.encryptionKeyV2 iv data with hct0
  set tag := gcmTag K.encryptionKeyV2 iv ct with htag0
  have hc : encrypt gcmEnc gcmTag K iv data = ENCRYPTION_VERSION_V2 ++ iv ++ tag ++ ct := rfl
  rw [hc] at hi hb hv2v1 ⊢
  obtain ⟨hp, _, _, _, hlen⟩ := v2_layout iv tag ct hiv htag
  have h20 : (ENCRYPTION_VERSION_V2 ++ iv).length = 20 := by
    simp [ENCRYPTION_VERSION_V2_length, hiv]
  have h36 : (ENCRYPTION_VERSION_V2 ++ iv ++ tag).length = 36 := by
    simp [List.length_append, ENCRYPTION_VERSION_V2_length, hiv, htag]
  have hCget := v2_getD iv tag ct hiv htag i
  rw [hlen] at hi
  by_cases h8 : i < 8
  · -- version prefix altered: the buffer is routed to the v1 decryptor,
    -- whose HMAC check fails by hypothesis
    have hne : ((ENCRYPTION_VERSION_V2 ++ iv ++ tag ++ ct).set i b).take 8
        ≠ ENCRYPTION_VERSION_V2 := by
      rw [take_set_of_lt _ _ _ _ (by omega), hp]
      rw [hCget, if_pos h8] at hb
      exact set_ne_self_of_ne _ _ _ (by rw [ENCRYPTION_VERSION_V2_length]; omega) hb
    rw [decrypt_dispatch, if_neg hne]
    simp only [decryptV1]
    have hd16 : (((ENCRYPTION_VERSION_V2 ++ iv ++ tag ++ ct).set i b).drop 16).take 16
        = ((ENCRYPTION_VERSION_V2 ++ iv ++ tag ++ ct).drop 16).take 16 := by
      rw [drop_set_of_lt _ _ _ _ (by omega)]
    have hd32 : ((ENCRYPTION_VERSION_V2 ++ iv ++ tag ++ ct).set i b).drop 32
        = (ENCRYPTION_VERSION_V2 ++ iv ++ tag ++ ct).drop 32 := by
      rw [drop_set_of_lt _ _ _ _ (by omega)]
    have hmlen : (((ENCRYPTION_VERSION_V2 ++ iv ++ tag ++ ct).set i b).take 16
          ++ ((ENCRYPTION_VERSION_V2 ++ iv ++ tag ++ ct).set i b).drop 32).length
        = 16 + ((ENCRYPTION_VERSION_V2 ++ iv ++ tag ++ ct).length - 32) := by
      rw [List.length_append, List.length_take, List.length_set, List.length_drop,
        List.length_set, hlen]
      omega
    have hcalc := hv2v1 _ hmlen
    rw [hd16]
    exact ⟨_, by rw [if_neg (fun hEq => hcalc hEq.symm)]⟩
  · by_cases h20i : i < 20
    · -- IV altered: the recomputed tag cannot match the stored one
      have hset : (ENCRYPTION_VERSION_V2 ++ iv ++ tag ++ ct).set i b
          = ENCRYPTION_VERSION_V2 ++ iv.set (i - 8) b ++ tag ++ ct := by
        rw [List.set_append_left i b (by rw [h36]; omega),
          List.set_append_left i b (by rw [h20]; omega),
          List.set_append_right i b (by rw [ENCRYPTION_VERSION_V2_length]; omega),
          ENCRYPTION_VERSION_V2_length]
      obtain ⟨hp2, hiv2, htag2, hct2, _⟩ :=
        v2_layout (iv.set (i - 8) b) tag ct (by rw [List.length_set]; exact hiv) htag
      rw [hset, decrypt_dispatch, if_pos hp2]
      simp only [decryptV2]
      rw [hiv2, htag2, hct2]
      rw [hCget, if_neg h8, if_pos h20i] at hb
      have hivne : iv.set (i - 8) b ≠ iv :=
        set_ne_self_of_ne _ _ _ (by omega) hb
      exact ⟨_, by
        rw [if_neg (fun hEq =>
          hivne (htagInj _ _ (by rw [List.length_set]; exact hiv) hEq).1)]⟩
    · by_cases h36i : i < 36
      · -- stored auth tag altered: it no longer equals the recomputed tag
        have hset : (ENCRYPTION_VERSION_V2 ++ iv ++ tag ++ ct).set i b
            = ENCRYPTION_VERSION_V2 ++ iv ++ tag.set (i - 20) b ++ ct := by
          rw [List.set_append_left i b (by rw [h36]; omega),
            List.set_append_right i b (by rw [h20]; omega), h20]
        obtain ⟨hp2, hiv2, htag2, hct2, _⟩ :=
          v2_layout iv (tag.set (i - 20) b) ct hiv (by rw [List.length_set]; exact htag)
        rw [hset, decrypt_dispatch, if_pos hp2]
        simp only [decryptV2]
        rw [hiv2, htag2, hct2]
        rw [hCget, if_neg h8, if_neg h20i, if_pos h36i] at hb
        have htagne : tag.set (i - 20) b ≠ tag :=
          set_ne_self_of_ne _ _ _ (by rw [htag]; omega) hb
        exact ⟨_, by rw [if_neg (fun hEq => htagne hEq.symm)]⟩
      · -- ciphertext altered: the recomputed tag cannot match
        have hset : (ENCRYPTION_VERSION_V2 ++ iv ++ tag ++ ct).set i b
            = ENCRYPTION_VERSION_V2 ++ iv ++ tag ++ ct.set (i - 36) b := by
          rw [List.set_append_right i b (by rw [h36]; omega), h36]
        obtain ⟨hp2, hiv2, htag2, hct2, _⟩ :=
          v2_layout iv tag (ct.set (i - 36) b) hiv htag
        rw [hset, decrypt_dispatch, if_pos hp2]
        simp only [decryptV2]
        rw [hiv2, htag2, hct2]
        rw [hCget, if_neg h8, if_neg h20i, if_neg h36i] at hb
        have hctne : ct.set (i - 36) b ≠ ct :=
          set_ne_self_of_ne _ _ _ (by omega) hb
        exact ⟨_, by
          rw [if_neg (fun hEq => hctne (htagInj _ _ hiv hEq).2)]⟩

/-- Tamper resistance of the legacy v1 framing: altering any single byte
of a v1 ciphertext that still lacks the v2 version tag makes decryption
fail, provided the truncated HMAC has no collision at this point. -/
theorem decrypt_tamper_v1 (gcmDec gcmTag ctrEnc ctrDec : Bytes → Bytes → Bytes → Bytes)
    (hmacSha256 : Bytes → Bytes → Bytes) (K : EncryptionKeys) (iv data : Bytes)
    (hiv : iv.length = 16)
    (hhmaclen : 16 ≤ (hmacSha256 ((K.encryptionKeyV1.drop 16).take 15)
        (iv ++ ctrEnc (K.encryptionKeyV1.take 16) iv data)).length)
    (hhmacInj : ∀ m : Bytes,
        m.length = 16 + (ctrEnc (K.encryptionKeyV1.take 16) iv data).length →
        m ≠ iv ++ ctrEnc (K.encryptionKeyV1.take 16) iv data →
        (hmacSha256 ((K.encryptionKeyV1.drop 16).take 15) m).take 16
          ≠ (hmacSha256 ((K.encryptionKeyV1.drop 16).take 15)
              (iv ++ ctrEnc (K.encryptionKeyV1.take 16) iv data)).take 16)
    (i b : Nat) (hi : i < (encryptV1 ctrEnc hmacSha256 K iv data).length)
    (hb : b ≠ (encryptV1 ctrEnc hmacSha256 K iv data).getD i 0)
    (hpre : ((encryptV1 ctrEnc hmacSha256 K iv data).set i b).take 8
      ≠ ENCRYPTION_VERSION_V2) :
    ∃ e, decrypt gcmDec gcmTag ctrDec hmacSha256 K
        ((encryptV1 ctrEnc hmacSha256 K iv data).set i b) = .error e := by
  set ct := ctrEnc (K.encryptionKeyV1.take 16) iv data with hct0
  set tagT := (hmacSha256 ((K.encryptionKeyV1.drop 16).take 15) (iv ++ ct)).take 16 with htagT0
  have htlen : tagT.length = 16 := by
    rw [htagT0, List.length_take]
    omega
  have hc : encryptV1 ctrEnc hmacSha256 K iv data = iv ++ tagT ++ ct := rfl
  rw [hc] at hi hb hpre ⊢
  obtain ⟨_, _, _, hlen⟩ := v1_layout iv tagT ct hiv htlen
  have h32 : (iv ++ tagT).length = 32 := by
    simp [List.length_append, hiv, htlen]
  have hCget := v1_getD iv tagT ct hiv htlen i
  rw [hlen] at hi
  rw [decrypt_dispatch, if_neg hpre]
  simp only [decryptV1]
  by_cases h16 : i < 16
  · -- IV altered
    have hset : (iv ++ tagT ++ ct).set i b = iv.set i b ++ tagT ++ ct := by
      rw [List.set_append_left i b (by rw [h32]; omega),
        List.set_append_left i b (by rw [hiv]; omega)]
    obtain ⟨hiv2, htag2, hct2, _⟩ :=
      v1_layout (iv.set i b) tagT ct (by rw [List.length_set]; exact hiv) htlen
    rw [hset, hiv2, htag2, hct2]
    rw [hCget, if_pos h16] at hb
    have hmne : iv.set i b ++ ct ≠ iv ++ ct := fun hEq =>
      set_ne_self_of_ne _ _ _ (by omega) hb (List.append_cancel_right hEq)
    have hmlen : (iv.set i b ++ ct).length = 16 + ct.length := by
      rw [List.length_append, List.length_set, hiv]
    have hcalc := hhmacInj _ hmlen hmne
    exact ⟨_, by rw [if_neg (fun hEq => hcalc hEq.symm)]⟩
  · by_cases h32i : i < 32
    · -- stored auth tag altered
      have hset : (iv ++ tagT ++ ct).set i b = iv ++ tagT.set (i - 16) b ++ ct := by
        rw [List.set_append_left i b (by rw [h32]; omega),
          List.set_append_right i b (by rw [hiv]; omega), hiv]
      obtain ⟨hiv2, htag2, hct2, _⟩ :=
        v1_layout iv (tagT.set (i - 16) b) ct hiv (by rw [List.length_set]; exact htlen)
      rw [hset, hiv2, htag2, hct2, ← htagT0]
      rw [hCget, if_neg h16, if_pos h32i] at hb
      have htagne : tagT.set (i - 16) b ≠ tagT :=
        set_ne_self_of_ne _ _ _ (by rw [htlen]; omega) hb
      exact ⟨_, by rw [if_neg htagne]⟩
    · -- ciphertext altered
      have hset : (iv ++ tagT ++ ct).set i b = iv ++ tagT ++ ct.set (i - 32) b := by
        rw [List.set_append_right i b (by rw [h32]; omega), h32]
      obtain ⟨hiv2, htag2, hct2, _⟩ :=
        v1_layout iv tagT (ct.set (i - 32) b) hiv htlen
      rw [hset, hiv2, htag2, hct2]
      rw [hCget, if_neg h16, if_neg h32i] at hb
      have hctne : ct.set (i - 32) b ≠ ct :=
        set_ne_self_of_ne _ _ _ (by omega) hb
      have hmne : iv ++ ct.set (i - 32) b ≠ iv ++ ct := fun hEq =>
        hctne (List.append_cancel_left hEq)
      have hmlen : (iv ++ ct.set (i - 32) b).length = 16 + ct.length := by
        rw [List.length_append, List.length_set, hiv]
      have hcalc := hhmacInj _ hmlen hmne
      exact ⟨_, by rw [if_neg (fun hEq => hcalc hEq.symm)]⟩

/-- Successful decryption of a well-formed serialized UTXO parses back
exactly the serialized fields. -/
theorem decryptUtxo_ok_of_plain (gcmDec gcmTag ctrDec : Bytes → Bytes → Bytes → Bytes)
    (hmacSha256 : Bytes → Bytes → Bytes) (K : EncryptionKeys) (buf : Bytes) (u : Utxo)
    (hm : '|' ∉ u.mintAddress)
    (hd : decrypt gcmDec gcmTag ctrDec hmacSha256 K buf
      = .ok (charsToBytes (utxoPlain u))) :
    decryptUtxo gcmDec gcmTag ctrDec hmacSha256 K buf
      = .ok ⟨u.amount, u.blinding, some u.index, u.mintAddress,
          getUtxoPrivateKeyWithVersion K (getEncryptionKeyVersion buf),
          getEncryptionKeyVersion buf⟩ := by
  simp only [decryptUtxo, hd, bytesToChars_charsToBytes, splitOnChar_utxoPlain u hm,
    charsToNat?_natToChars, jsNumber?_natToChars]

/-- A decryption failure propagates unchanged through decryptUtxo. -/
theorem decryptUtxo_error_of_decrypt (gcmDec gcmTag ctrDec : Bytes → Bytes → Bytes → Bytes)
    (hmacSha256 : Bytes → Bytes → Bytes) (K : EncryptionKeys) (buf : Bytes) (e : Str)
    (hd : decrypt gcmDec gcmTag ctrDec hmacSha256 K buf = .error e) :
    decryptUtxo gcmDec gcmTag ctrDec hmacSha256 K buf = .error e := by
  simp only [decryptUtxo, hd]

/-- The first eight bytes of a v1 ciphertext are the first eight IV
bytes. -/
theorem encryptV1_take8 (ctrEnc : Bytes → Bytes → Bytes → Bytes)
    (hmacSha256 : Bytes → Bytes → Bytes) (K : EncryptionKeys) (iv data : Bytes)
    (hiv : iv.length = 16) :
    (encryptV1 ctrEnc hmacSha256 K iv data).take 8 = iv.take 8 := by
  have hc : encryptV1 ctrEnc hmacSha256 K iv data
      = iv ++ ((hmacSha256 ((K.encryptionKeyV1.drop 16).take 15)
          (iv ++ ctrEnc (K.encryptionKeyV1.take 16) iv data)).take 16
        ++ ctrEnc (K.encryptionKeyV1.take 16) iv data) := by
    simp [encryptV1, List.append_assoc]
  rw [hc, List.take_append_of_le_length (by omega)]

/-- C4 (amended): for every UTXO whose mint address contains no pipe
delimiter, decrypting the encryption of the UTXO returns its amount,
blinding, index and mint unchanged, on the v2 path (the format the
engine produces) and on the spec-modelled v1 path alike; and every
single-byte alteration of either ciphertext makes decryption fail with
an error, under the stated pointwise collision-freedom laws of the
authentication primitives (which the real AEAD and HMAC satisfy except
with negligible probability). -/
theorem c4_roundtrip_and_tamper
    (gcmEnc gcmDec gcmTag ctrEnc ctrDec : Bytes → Bytes → Bytes → Bytes)
    (hmacSha256 : Bytes → Bytes → Bytes) (K : EncryptionKeys) (iv ivV1 : Bytes) (u : Utxo)
    (hm : '|' ∉ u.mintAddress)
    (hiv : iv.length = 12)
    (hdec : gcmDec K.encryptionKeyV2 iv
        (gcmEnc K.encryptionKeyV2 iv (charsToBytes (utxoPlain u)))
      = charsToBytes (utxoPlain u))
    (htag : (gcmTag K.encryptionKeyV2 iv
        (gcmEnc K.encryptionKeyV2 iv (charsToBytes (utxoPlain u)))).length = 16)
    (htagInj : ∀ iv2 d2, iv2.length = 12 →
        gcmTag K.encryptionKeyV2 iv2 d2
          = gcmTag K.encryptionKeyV2 iv
              (gcmEnc K.encryptionKeyV2 iv (charsToBytes (utxoPlain u))) →
        iv2 = iv ∧ d2 = gcmEnc K.encryptionKeyV2 iv (charsToBytes (utxoPlain u)))
    (hiv1 : ivV1.length = 16)
    (hiv1tag : ivV1.take 8 ≠ ENCRYPTION_VERSION_V2)
    (hctr : ctrDec (K.encryptionKeyV1.take 16) ivV1
        (ctrEnc (K.encryptionKeyV1.take 16) ivV1 (charsToBytes (utxoPlain u)))
      = charsToBytes (utxoPlain u))
    (hhmaclen : 16 ≤ (hmacSha256 ((K.encryptionKeyV1.drop 16).take 15)
        (ivV1 ++ ctrEnc (K.encryptionKeyV1.take 16) ivV1 (charsToBytes (utxoPlain u)))).length)
    (hhmacInj : ∀ m : Bytes,
        m.length = 16 + (ctrEnc (K.encryptionKeyV1.take 16) ivV1
          (charsToBytes (utxoPlain u))).length →
        m ≠ ivV1 ++ ctrEnc (K.encryptionKeyV1.take 16) ivV1 (charsToBytes (utxoPlain u)) →
        (hmacSha256 ((K.encryptionKeyV1.drop 16).take 15) m).take 16
          ≠ (hmacSha256 ((K.encryptionKeyV1.drop 16).take 15)
              (ivV1 ++ ctrEnc (K.encryptionKeyV1.take 16) ivV1
                (charsToBytes (utxoPlain u)))).take 16)
    (hv2v1 : ∀ m : Bytes,
        m.length = 16 + ((encryptUtxo gcmEnc gcmTag K iv u).length - 32) →
        (hmacSha256 ((K.encryptionKeyV1.drop 16).take 15) m).take 16
          ≠ ((encryptUtxo gcmEnc gcmTag K iv u).drop 16).take 16) :
    decryptUtxo gcmDec gcmTag ctrDec hmacSha256 K (encryptUtxo gcmEnc gcmTag K iv u)
        = .ok ⟨u.amount, u.blinding, some u.index, u.mintAddress,
            K.utxoPrivateKeyV2, str "v2"⟩
    ∧ decryptUtxo gcmDec gcmTag ctrDec hmacSha256 K (encryptUtxoV1 ctrEnc hmacSha256 K ivV1 u)
        = .ok ⟨u.amount, u.blinding, some u.index, u.mintAddress,
            K.utxoPrivateKeyV1, str "v1"⟩
    ∧ (∀ i b : Nat, i < (encryptUtxo gcmEnc gcmTag K iv u).length → b < 256 →
        b ≠ (encryptUtxo gcmEnc gcmTag K iv u).getD i 0 →
        ∃ e, decryptUtxo gcmDec gcmTag ctrDec hmacSha256 K
            ((encryptUtxo gcmEnc gcmTag K iv u).set i b) = .error e)
    ∧ (∀ i b : Nat, i < (encryptUtxoV1 ctrEnc hmacSha256 K ivV1 u).length → b < 256 →
        b ≠ (encryptUtxoV1 ctrEnc hmacSha256 K ivV1 u).getD i 0 →
        ((encryptUtxoV1 ctrEnc hmacSha256 K ivV1 u).set i b).take 8 ≠ ENCRYPTION_VERSION_V2 →
        ∃ e, decryptUtxo gcmDec gcmTag ctrDec hmacSha256 K
            ((encryptUtxoV1 ctrEnc hmacSha256 K ivV1 u).set i b) = .error e) := by
  have hctA : encryptUtxo gcmEnc gcmTag K iv u
      = encrypt gcmEnc gcmTag K iv (charsToBytes (utxoPlain u)) := rfl
  have hctB : encryptUtxoV1 ctrEnc hmacSha256 K ivV1 u
      = encryptV1 ctrEnc hmacSha256 K ivV1 (charsToBytes (utxoPlain u)) := rfl
  have hpA : (encryptUtxo gcmEnc gcmTag K iv u).take 8 = ENCRYPTION_VERSION_V2 := by
    rw [hctA, show encrypt gcmEnc gcmTag K iv (charsToBytes (utxoPlain u))
        = ENCRYPTION_VERSION_V2
          ++ (iv ++ (gcmTag K.encryptionKeyV2 iv
              (gcmEnc K.encryptionKeyV2 iv (charsToBytes (utxoPlain u)))
            ++ gcmEnc K.encryptionKeyV2 iv (charsToBytes (utxoPlain u))))
        by simp [encrypt, List.append_assoc]]
    exact List.take_left' ENCRYPTION_VERSION_V2_length
  have hpB : (encryptUtxoV1 ctrEnc hmacSha256 K ivV1 u).take 8 ≠ ENCRYPTION_VERSION_V2 := by
    rw [hctB, encryptV1_take8 ctrEnc hmacSha256 K ivV1 _ hiv1]
    exact hiv1tag
  have hvA : getEncryptionKeyVersion (encryptUtxo gcmEnc gcmTag K iv u) = str "v2" := by
    rw [getEncryptionKeyVersion_dispatch, if_pos hpA]
  have hvB : getEncryptionKeyVersion (encryptUtxoV1 ctrEnc hmacSha256 K ivV1 u) = str "v1" := by
    rw [getEncryptionKeyVersion_dispatch, if_neg hpB]
  have hdA : decrypt gcmDec gcmTag ctrDec hmacSha256 K (encryptUtxo gcmEnc gcmTag K iv u)
      = .ok (charsToBytes (utxoPlain u)) := by
    rw [hctA]
    exact decrypt_encrypt gcmEnc gcmDec gcmTag ctrDec hmacSha256 K iv
      (charsToBytes (utxoPlain u)) hiv htag hdec
  have hdB : decrypt gcmDec gcmTag ctrDec hmacSha256 K
        (encryptUtxoV1 ctrEnc hmacSha256 K ivV1 u)
      = .ok (charsToBytes (utxoPlain u)) := by
    rw [hctB]
    exact decrypt_encryptV1 gcmDec gcmTag ctrEnc ctrDec hmacSha256 K ivV1
      (charsToBytes (utxoPlain u)) hiv1 hiv1tag hhmaclen hctr
  refine ⟨?_, ?_, ?_, ?_⟩
  · have h1 := decryptUtxo_ok_of_plain gcmDec gcmTag ctrDec hmacSha256 K
      (encryptUtxo gcmEnc gcmTag K iv u) u hm hdA
    rw [hvA] at h1
    rw [h1, getUtxoPrivateKeyWithVersion, if_neg (by decide)]
  · have h1 := decryptUtxo_ok_of_plain gcmDec gcmTag ctrDec hmacSha256 K
      (encryptUtxoV1 ctrEnc hmacSha256 K ivV1 u) u hm hdB
    rw [hvB] at h1
    rw [h1, getUtxoPrivateKeyWithVersion, if_pos rfl]
  · intro i b hi hb256 hb
    rw [hctA] at hi hb hv2v1 ⊢
    obtain ⟨e, he⟩ := decrypt_tamper_v2 gcmEnc gcmDec gcmTag ctrDec hmacSha256 K iv
      (charsToBytes (utxoPlain u)) hiv htag htagInj hv2v1 i b hi hb
    exact ⟨e, decryptUtxo_error_of_decrypt gcmDec gcmTag ctrDec hmacSha256 K _ e he⟩
  · intro i b hi hb256 hb hpre
    rw [hctB] at hi hb hpre ⊢
    obtain ⟨e, he⟩ := decrypt_tamper_v1 gcmDec gcmTag ctrEnc ctrDec hmacSha256 K ivV1
      (charsToBytes (utxoPlain u)) hiv1 hhmaclen hhmacInj i b hi hb hpre
    exact ⟨e, decryptUtxo_error_of_decrypt gcmDec gcmTag ctrDec hmacSha256 K _ e he⟩

/-- Concrete UTXO fixture for the encryption round trip. -/
def tU : Utxo := mkUtxo 0
  { keypair := kpA, amount := some 7, blinding := some 9, index := some 3,
    mintAddress := some (str "m") }

/-- Concrete UTXO fixture whose mint address contains the delimiter. -/
def tUPipe : Utxo := mkUtxo 0
  { keypair := kpA, amount := some 7, blinding := some 9, index := some 3,
    mintAddress := some (str "a|b") }

def tPlain : Bytes := charsToBytes (utxoPlain tU)

def tK : EncryptionKeys := ⟨List.replicate 31 5, [2], str "0xA", str "0xB"⟩

def tIv : Bytes := List.replicate 12 7

def tIvV1 : Bytes := List.replicate 16 5

/-- Toy cipher for closed evaluations: the ciphertext is the plaintext. -/
def tId3 : Bytes → Bytes → Bytes → Bytes := fun _ _ d => d

/-- Toy AEAD tag, collision-free at the fixture point. -/
def tGcmTag : Bytes → Bytes → Bytes → Bytes := fun _ iv2 d2 =>
  if iv2 = tIv ∧ d2 = tPlain then List.replicate 16 0 else List.replicate 16 1

/-- Toy HMAC, collision-free at the fixture point. -/
def tHmac : Bytes → Bytes → Bytes := fun _ m =>
  if m = tIvV1 ++ tPlain then List.replicate 16 2 else [300]

/-- Toy AEAD tag that accepts everything, used to drive a tampered or
malformed plaintext through the parse stage. -/
def cGcmTag : Bytes → Bytes → Bytes → Bytes := fun _ _ _ => List.replicate 16 0

theorem tHtagInj : ∀ iv2 d2 : Bytes, iv2.length = 12 →
    tGcmTag tK.encryptionKeyV2 iv2 d2
      = tGcmTag tK.encryptionKeyV2 tIv (tId3 tK.encryptionKeyV2 tIv (charsToBytes (utxoPlain tU))) →
    iv2 = tIv ∧ d2 = tId3 tK.encryptionKeyV2 tIv (charsToBytes (utxoPlain tU)) := by
  intro iv2 d2 _ he
  by_cases hcond : iv2 = tIv ∧ d2 = tPlain
  · exact ⟨hcond.1, hcond.2⟩
  · exfalso
    have hR : tGcmTag tK.encryptionKeyV2 tIv
        (tId3 tK.encryptionKeyV2 tIv (charsToBytes (utxoPlain tU)))
        = List.replicate 16 0 := by decide
    rw [hR] at he
    simp only [tGcmTag] at he
    rw [if_neg hcond] at he
    exact absurd he (by decide)

theorem tHhmacInj : ∀ m : Bytes,
    m.length = 16 + (tId3 (tK.encryptionKeyV1.take 16) tIvV1 (charsToBytes (utxoPlain tU))).length →
    m ≠ tIvV1 ++ tId3 (tK.encryptionKeyV1.take 16) tIvV1 (charsToBytes (utxoPlain tU)) →
    (tHmac ((tK.encryptionKeyV1.drop 16).take 15) m).take 16
      ≠ (tHmac ((tK.encryptionKeyV1.drop 16).take 15)
          (tIvV1 ++ tId3 (tK.encryptionKeyV1.take 16) tIvV1 (charsToBytes (utxoPlain tU)))).take 16 := by
  intro m _ hne
  have hR : (tHmac ((tK.encryptionKeyV1.drop 16).take 15)
      (tIvV1 ++ tId3 (tK.encryptionKeyV1.take 16) tIvV1 (charsToBytes (utxoPlain tU)))).take 16
      = List.replicate 16 2 := by decide
  have hne2 : m ≠ tIvV1 ++ tPlain := hne
  have hL : tHmac ((tK.encryptionKeyV1.drop 16).take 15) m = [300] := by
    simp only [tHmac]
    rw [if_neg hne2]
  rw [hR, hL]
  decide

theorem tHv2v1 : ∀ m : Bytes,
    m.length = 16 + ((encryptUtxo tId3 tGcmTag tK tIv tU).length - 32) →
    (tHmac ((tK.encryptionKeyV1.drop 16).take 15) m).take 16
      ≠ ((encryptUtxo tId3 tGcmTag tK tIv tU).drop 16).take 16 := by
  intro m hlen
  have hLne : m ≠ tIvV1 ++ tPlain := by
    intro he
    rw [he] at hlen
    exact absurd hlen (by decide)
  have hL : tHmac ((tK.encryptionKeyV1.drop 16).take 15) m = [300] := by
    simp only [tHmac]
    rw [if_neg hLne]
  rw [hL]
  decide

theorem c4_roundtrip_and_tamper_witness :
    decryptUtxo tId3 tGcmTag tId3 tHmac tK (encryptUtxo tId3 tGcmTag tK tIv tU)
        = .ok ⟨7, 9, some 3, str "m", str "0xB", str "v2"⟩
    ∧ decryptUtxo tId3 tGcmTag tId3 tHmac tK (encryptUtxoV1 tId3 tHmac tK tIvV1 tU)
        = .ok ⟨7, 9, some 3, str "m", str "0xA", str "v1"⟩
    ∧ (∃ e, decryptUtxo tId3 tGcmTag tId3 tHmac tK
        ((encryptUtxo tId3 tGcmTag tK tIv tU).set 40 99) = .error e)
    ∧ (∃ e, decryptUtxo tId3 tGcmTag tId3 tHmac tK
        ((encryptUtxoV1 tId3 tHmac tK tIvV1 tU).set 0 99) = .error e) := by
  obtain ⟨h1, h2, h3, h4⟩ :=
    c4_roundtrip_and_tamper tId3 tId3 tGcmTag tId3 tId3 tHmac tK tIv tIvV1 tU
      (by decide) (by decide) rfl (by decide) tHtagInj
      (by decide) (by decide) rfl (by decide) tHhmacInj tHv2v1
  exact ⟨h1, h2, h3 40 99 (by decide) (by decide) (by decide),
    h4 0 99 (by decide) (by decide) (by decide) (by decide)⟩

/-- C4 counterexample: for a UTXO whose mint address itself contains the
pipe delimiter, the round trip fails: the decrypted plaintext splits
into five parts and decryptUtxo raises the invalid-format error instead
of returning the UTXO. -/
theorem c4_counterexample :
    decryptUtxo tId3 cGcmTag tId3 tHmac tK (encryptUtxo tId3 cGcmTag tK tIv tUPipe)
      = .error (str "Invalid UTXO format") := by decide

/-- C10: when authenticated decryption succeeds, decryptUtxo raises the
invalid-format error exactly when the plaintext does not split on the
pipe character into four parts; with exactly four parts it returns the
parsed amount, blinding, JavaScript-Number index and mint, with the
spending key selected by the ciphertext version tag. -/
theorem c10_decryptUtxo_format (gcmDec gcmTag ctrDec : Bytes → Bytes → Bytes → Bytes)
    (hmacSha256 : Bytes → Bytes → Bytes) (K : EncryptionKeys) (buf d : Bytes)
    (hd : decrypt gcmDec gcmTag ctrDec hmacSha256 K buf = .ok d) :
    (decryptUtxo gcmDec gcmTag ctrDec hmacSha256 K buf = .error (str "Invalid UTXO format")
      ↔ (splitOnChar '|' (bytesToChars d)).length ≠ 4)
    ∧ (∀ a b i m : Str, splitOnChar '|' (bytesToChars d) = [a, b, i, m] →
        ∀ na nb : Nat, charsToNat? a = some na → charsToNat? b = some nb →
        decryptUtxo gcmDec gcmTag ctrDec hmacSha256 K buf
          = .ok ⟨na, nb, jsNumber? i, m,
              getUtxoPrivateKeyWithVersion K (getEncryptionKeyVersion buf),
              getEncryptionKeyVersion buf⟩) := by
  constructor
  · rcases hsp : splitOnChar '|' (bytesToChars d) with _ | ⟨a, _ | ⟨b, _ | ⟨c, _ | ⟨e, _ | ⟨f, r⟩⟩⟩⟩⟩
    · simp [decryptUtxo, hd, hsp]
    · simp [decryptUtxo, hd, hsp]
    · simp [decryptUtxo, hd, hsp]
    · simp [decryptUtxo, hd, hsp]
    · simp only [decryptUtxo, hd, hsp]
      rcases h1 : charsToNat? a with _ | na
      · simp [h1]
        decide
      · rcases h2 : charsToNat? b with _ | nb
        · simp [h1, h2]
          decide
        · simp [h1, h2]
    · simp [decryptUtxo, hd, hsp]
  · intro a b i m hsp na nb h1 h2
    simp only [decryptUtxo, hd, hsp, h1, h2]

def tBuf : Bytes := encrypt tId3 cGcmTag tK tIv (charsToBytes (str "5|6|7|mm"))

theorem c10_decryptUtxo_format_witness :
    (decryptUtxo tId3 cGcmTag tId3 tHmac tK tBuf = .error (str "Invalid UTXO format")
      ↔ (splitOnChar '|' (bytesToChars (charsToBytes (str "5|6|7|mm")))).length ≠ 4)
    ∧ decryptUtxo tId3 cGcmTag tId3 tHmac tK tBuf
        = .ok ⟨5, 6, jsNumber? (str "7"), str "mm",
            getUtxoPrivateKeyWithVersion tK (getEncryptionKeyVersion tBuf),
            getEncryptionKeyVersion tBuf⟩ := by
  obtain ⟨hiff, hparse⟩ := c10_decryptUtxo_format tId3 cGcmTag tId3 tHmac tK tBuf
    (charsToBytes (str "5|6|7|mm")) (by decide)
  exact ⟨hiff, hparse (str "5") (str "6") (str "7") (str "mm") (by decide) 5 6
    (by decide) (by decide)⟩

/-- Little-endian fixed-width byte rendering of a natural number: the
model of BN.toArray(le, len). -/
def leBytes : Nat → Nat → Bytes
  | 0, _ => []
  | len + 1, n => n % 256 :: leBytes len (n / 256)

/-- The value of a little-endian byte list. -/
def fromLE : Bytes → Nat
  | [] => 0
  | b :: bs => b + 256 * fromLE bs

/-- BN.toTwos(64): the 64-bit two complement residue of a signed
integer, as a natural number. -/
def toTwos64 (x : Int) : Nat := (x % (2 ^ 64 : Int)).toNat

/-- The parsed proof fields, as fixed-width byte arrays. -/
structure ProofData where
  proofA : Bytes
  proofB : Bytes
  proofC : Bytes
  root : Bytes
  publicAmount : Bytes
  extDataHash : Bytes
  inputNullifier0 : Bytes
  inputNullifier1 : Bytes
  outputCommitment0 : Bytes
  outputCommitment1 : Bytes
deriving DecidableEq, Repr

/-- The external transaction metadata consumed by the serializer. -/
structure ExtData where
  recipient : Bytes
  extAmount : Int
  encryptedOutput1 : Bytes
  encryptedOutput2 : Bytes
  fee : Nat
  feeRecipient : Bytes
  mintAddress : Str
deriving DecidableEq, Repr

def TRANSACT_IX_DISCRIMINATOR : Bytes := [217, 149, 130, 143, 221, 52, 252, 119]

def TRANSACT_SPL_IX_DISCRIMINATOR : Bytes := [154, 66, 244, 204, 78, 225, 163, 151]

/-- serializeProofAndExtData: the exact concatenation submitted
on-chain. -/
def serializeProofAndExtData (proof : ProofData) (extData : ExtData) (isSpl : Bool) : Bytes :=
  (if isSpl then TRANSACT_SPL_IX_DISCRIMINATOR else TRANSACT_IX_DISCRIMINATOR)
    ++ proof.proofA ++ proof.proofB ++ proof.proofC ++ proof.root ++ proof.publicAmount
    ++ proof.extDataHash ++ proof.inputNullifier0 ++ proof.inputNullifier1
    ++ proof.outputCommitment0 ++ proof.outputCommitment1
    ++ leBytes 8 (toTwos64 extData.extAmount)
    ++ leBytes 8 extData.fee
    ++ leBytes 4 extData.encryptedOutput1.length
    ++ extData.encryptedOutput1
    ++ leBytes 4 extData.encryptedOutput2.length
    ++ extData.encryptedOutput2

theorem length_leBytes (len n : Nat) : (leBytes len n).length = len := by
  induction len generalizing n with
  | zero => rfl
  | succ len ih => simp [leBytes, ih]

theorem fromLE_leBytes (len n : Nat) : fromLE (leBytes len n) = n % 256 ^ len := by
  induction len generalizing n with
  | zero => simp [leBytes, fromLE, Nat.mod_one]
  | succ len ih =>
    simp only [leBytes, fromLE, ih]
    have h1 : 256 ^ (len + 1) = 256 * 256 ^ len := by ring
    rw [h1, Nat.mod_mul]

/-- Program-address derivation: two primary nullifier addresses, each
input under its own seed prefix. -/
def findNullifierPDAs (findProgramAddress : List Bytes → Bytes → Bytes)
    (programId : Bytes) (proof : ProofData) : Bytes × Bytes :=
  (findProgramAddress [charsToBytes (str "nullifier0"), proof.inputNullifier0] programId,
   findProgramAddress [charsToBytes (str "nullifier1"), proof.inputNullifier1] programId)

/-- Cross-check program-address derivation: each input nullifier
re-derived under the opposite seed prefix. -/
def findCrossCheckNullifierPDAs (findProgramAddress : List Bytes → Bytes → Bytes)
    (programId : Bytes) (proof : ProofData) : Bytes × Bytes :=
  (findProgramAddress [charsToBytes (str "nullifier0"), proof.inputNullifier1] programId,
   findProgramAddress [charsToBytes (str "nullifier1"), proof.inputNullifier0] programId)

/-- The same proof with its two input nullifiers exchanged. -/
def swapInputNullifiers (proof : ProofData) : ProofData :=
  { proof with
    inputNullifier0 := proof.inputNullifier1
    inputNullifier1 := proof.inputNullifier0 }

/-- C8: exactly four program addresses are derived per 2-input proof:
the primary address of input k from seed prefix nullifier-k with
inputNullifiers[k], and the two cross-check addresses from the opposite
pairing; equivalently, the cross-check derivation is the primary
derivation of the nullifier-swapped proof. -/
theorem c8_pda_seeds (findProgramAddress : List Bytes → Bytes → Bytes)
    (programId : Bytes) (proof : ProofData) :
    findNullifierPDAs findProgramAddress programId proof
      = (findProgramAddress [charsToBytes (str "nullifier0"), proof.inputNullifier0] programId,
         findProgramAddress [charsToBytes (str "nullifier1"), proof.inputNullifier1] programId)
    ∧ findCrossCheckNullifierPDAs findProgramAddress programId proof
      = (findProgramAddress [charsToBytes (str "nullifier0"), proof.inputNullifier1] programId,
         findProgramAddress [charsToBytes (str "nullifier1"), proof.inputNullifier0] programId)
    ∧ findCrossCheckNullifierPDAs findProgramAddress programId proof
      = findNullifierPDAs findProgramAddress programId (swapInputNullifiers proof) :=
  ⟨rfl, rfl, rfl⟩

theorem toTwos64_lt (x : Int) : toTwos64 x < 2 ^ 64 := by
  rw [toTwos64]
  have h264 : (2 : Int) ^ 64 = 18446744073709551616 := by norm_num
  have h1 : 0 ≤ x % (2 ^ 64 : Int) := Int.emod_nonneg x (by norm_num)
  have h2 : x % (2 ^ 64 : Int) < 2 ^ 64 := Int.emod_lt_of_pos x (by norm_num)
  rw [h264] at h1 h2
  have h3 : (2 : Nat) ^ 64 = 18446744073709551616 := by norm_num
  omega

theorem toTwos64_int (x : Int) : (toTwos64 x : Int) = (x + 2 ^ 64) % 2 ^ 64 := by
  rw [toTwos64, Int.toNat_of_nonneg (Int.emod_nonneg x (by norm_num)),
    show x + 2 ^ 64 = x + 2 ^ 64 * 1 by ring, Int.add_mul_emod_self_left]

/-- One link of an offset chain: when the tail at offset k starts with a
block of n bytes, taking n there yields the block and the tail at offset
k + n is the remainder. -/
theorem drop_chain {s pre rest : Bytes} {k n : Nat} (m : Nat)
    (hd : s.drop k = pre ++ rest) (hp : pre.length = n) (hm : m = k + n) :
    (s.drop k).take n = pre ∧ s.drop m = rest := by
  refine ⟨by rw [hd]; exact List.take_left' hp, ?_⟩
  have h2 : s.drop m = (s.drop k).drop n := by rw [List.drop_drop, hm]
  rw [h2, hd]
  exact List.drop_left' hp

/-- C7: the serialized instruction payload is exactly the discriminator
chosen by the isSpl flag, the three proof elements, the seven 32-byte
public signals, the signed external amount as 8-byte two complement
little-endian, the fee as 8-byte little-endian, and the two 4-byte
little-endian length-prefixed encrypted outputs, at consecutive offsets
with no other bytes (the total length is exactly the sum of the parts). -/
theorem c7_wire_layout (proof : ProofData) (extData : ExtData) (isSpl : Bool)
    (hA : proof.proofA.length = 64) (hB : proof.proofB.length = 128)
    (hC : proof.proofC.length = 64) (hroot : proof.root.length = 32)
    (hpub : proof.publicAmount.length = 32) (hhash : proof.extDataHash.length = 32)
    (hn0 : proof.inputNullifier0.length = 32) (hn1 : proof.inputNullifier1.length = 32)
    (hc0 : proof.outputCommitment0.length = 32) (hc1 : proof.outputCommitment1.length = 32)
    (hfee : extData.fee < 2 ^ 64)
    (ho1 : extData.encryptedOutput1.length < 2 ^ 32)
    (ho2 : extData.encryptedOutput2.length < 2 ^ 32) :
    (serializeProofAndExtData proof extData isSpl).take 8
        = (if isSpl then TRANSACT_SPL_IX_DISCRIMINATOR else TRANSACT_IX_DISCRIMINATOR)
    ∧ ((serializeProofAndExtData proof extData isSpl).drop 8).take 64 = proof.proofA
    ∧ ((serializeProofAndExtData proof extData isSpl).drop 72).take 128 = proof.proofB
    ∧ ((serializeProofAndExtData proof extData isSpl).drop 200).take 64 = proof.proofC
    ∧ ((serializeProofAndExtData proof extData isSpl).drop 264).take 32 = proof.root
    ∧ ((serializeProofAndExtData proof extData isSpl).drop 296).take 32 = proof.publicAmount
    ∧ ((serializeProofAndExtData proof extData isSpl).drop 328).take 32 = proof.extDataHash
    ∧ ((serializeProofAndExtData proof extData isSpl).drop 360).take 32 = proof.inputNullifier0
    ∧ ((serializeProofAndExtData proof extData isSpl).drop 392).take 32 = proof.inputNullifier1
    ∧ ((serializeProofAndExtData proof extData isSpl).drop 424).take 32 = proof.outputCommitment0
    ∧ ((serializeProofAndExtData proof extData isSpl).drop 456).take 32 = proof.outputCommitment1
    ∧ (((serializeProofAndExtData proof extData isSpl).drop 488).take 8).length = 8
    ∧ (fromLE (((serializeProofAndExtData proof extData isSpl).drop 488).take 8) : Int)
        = (extData.extAmount + 2 ^ 64) % 2 ^ 64
    ∧ fromLE (((serializeProofAndExtData proof extData isSpl).drop 496).take 8) = extData.fee
    ∧ fromLE (((serializeProofAndExtData proof extData isSpl).drop 504).take 4)
        = extData.encryptedOutput1.length
    ∧ ((serializeProofAndExtData proof extData isSpl).drop 508).take
        extData.encryptedOutput1.length = extData.encryptedOutput1
    ∧ fromLE (((serializeProofAndExtData proof extData isSpl).drop
        (508 + extData.encryptedOutput1.length)).take 4) = extData.encryptedOutput2.length
    ∧ (serializeProofAndExtData proof extData isSpl).drop
        (512 + extData.encryptedOutput1.length) = extData.encryptedOutput2
    ∧ (serializeProofAndExtData proof extData isSpl).length
        = 512 + extData.encryptedOutput1.length + extData.encryptedOutput2.length := by
  have hnest : serializeProofAndExtData proof extData isSpl
      = (if isSpl then TRANSACT_SPL_IX_DISCRIMINATOR else TRANSACT_IX_DISCRIMINATOR)
        ++ (proof.proofA ++ (proof.proofB ++ (proof.proofC ++ (proof.root
        ++ (proof.publicAmount ++ (proof.extDataHash ++ (proof.inputNullifier0
        ++ (proof.inputNullifier1 ++ (proof.outputCommitment0 ++ (proof.outputCommitment1
        ++ (leBytes 8 (toTwos64 extData.extAmount) ++ (leBytes 8 extData.fee
        ++ (leBytes 4 extData.encryptedOutput1.length ++ (extData.encryptedOutput1
        ++ (leBytes 4 extData.encryptedOutput2.length
          ++ extData.encryptedOutput2))))))))))))))) := by
    simp [serializeProofAndExtData, List.append_assoc]
  have hdisc : (if isSpl then TRANSACT_SPL_IX_DISCRIMINATOR
      else TRANSACT_IX_DISCRIMINATOR).length = 8 := by
    cases isSpl <;> rfl
  have h0 : (serializeProofAndExtData proof extData isSpl).drop 0
      = (if isSpl then TRANSACT_SPL_IX_DISCRIMINATOR else TRANSACT_IX_DISCRIMINATOR)
        ++ (proof.proofA ++ (proof.proofB ++ (proof.proofC ++ (proof.root
        ++ (proof.publicAmount ++ (proof.extDataHash ++ (proof.inputNullifier0
        ++ (proof.inputNullifier1 ++ (proof.outputCommitment0 ++ (proof.outputCommitment1
        ++ (leBytes 8 (toTwos64 extData.extAmount) ++ (leBytes 8 extData.fee
        ++ (leBytes 4 extData.encryptedOutput1.length ++ (extData.encryptedOutput1
        ++ (leBytes 4 extData.encryptedOutput2.length
          ++ extData.encryptedOutput2))))))))))))))) := by
    rw [List.drop_zero]
    exact hnest
  obtain ⟨t0, d1⟩ := drop_chain 8 h0 hdisc (by norm_num)
  obtain ⟨t1, d2⟩ := drop_chain 72 d1 hA (by norm_num)
  obtain ⟨t2, d3⟩ := drop_chain 200 d2 hB (by norm_num)
  obtain ⟨t3, d4⟩ := drop_chain 264 d3 hC (by norm_num)
  obtain ⟨t4, d5⟩ := drop_chain 296 d4 hroot (by norm_num)
  obtain ⟨t5, d6⟩ := drop_chain 328 d5 hpub (by norm_num)
  obtain ⟨t6, d7⟩ := drop_chain 360 d6 hhash (by norm_num)
  obtain ⟨t7, d8x⟩ := drop_chain 392 d7 hn0 (by norm_num)
  obtain ⟨t8, d9⟩ := drop_chain 424 d8x hn1 (by norm_num)
  obtain ⟨t9, d10⟩ := drop_chain 456 d9 hc0 (by norm_num)
  obtain ⟨t10, d11⟩ := drop_chain 488 d10 hc1 (by norm_num)
  obtain ⟨t11, d12⟩ := drop_chain 496 d11 (length_leBytes 8 _) (by norm_num)
  obtain ⟨t12, d13⟩ := drop_chain 504 d12 (length_leBytes 8 _) (by norm_num)
  obtain ⟨t13, d14⟩ := drop_chain 508 d13 (length_leBytes 4 _) (by norm_num)
  obtain ⟨t14, d15⟩ :=
    drop_chain (508 + extData.encryptedOutput1.length) d14 rfl rfl
  obtain ⟨t15, d16⟩ :=
    drop_chain (512 + extData.encryptedOutput1.length) d15 (length_leBytes 4 _) (by omega)
  rw [List.drop_zero] at t0
  have h256864 : (256 : Nat) ^ 8 = 2 ^ 64 := by norm_num
  have h25644 : (256 : Nat) ^ 4 = 2 ^ 32 := by norm_num
  refine ⟨t0, t1, t2, t3, t4, t5, t6, t7, t8, t9, t10, ?_, ?_, ?_, ?_, t14, ?_, d16, ?_⟩
  · rw [t11, length_leBytes]
  · rw [t11, fromLE_leBytes, h256864,
      Nat.mod_eq_of_lt (toTwos64_lt extData.extAmount), toTwos64_int]
  · rw [t12, fromLE_leBytes, h256864, Nat.mod_eq_of_lt hfee]
  · rw [t13, fromLE_leBytes, h25644, Nat.mod_eq_of_lt ho1]
  · rw [t15, fromLE_leBytes, h25644, Nat.mod_eq_of_lt ho2]
  · rw [hnest]
    simp only [List.length_append, hdisc, hA, hB, hC, hroot, hpub, hhash, hn0, hn1,
      hc0, hc1, length_leBytes]
    omega

def c7P : ProofData :=
  ⟨List.replicate 64 1, List.replicate 128 2, List.replicate 64 3, List.replicate 32 4,
   List.replicate 32 5, List.replicate 32 6, List.replicate 32 7, List.replicate 32 8,
   List.replicate 32 9, List.replicate 32 10⟩

def c7E : ExtData :=
  ⟨List.replicate 32 11, -400, [21, 22], [23], 35, List.replicate 32 12, solMintShort⟩

set_option maxRecDepth 4096 in
theorem c7_wire_layout_witness :
    ((serializeProofAndExtData c7P c7E false).drop 8).take 64 = c7P.proofA
    ∧ (fromLE (((serializeProofAndExtData c7P c7E false).drop 488).take 8) : Int)
        = (c7E.extAmount + 2 ^ 64) % 2 ^ 64
    ∧ (serializeProofAndExtData c7P c7E false).length
        = 512 + c7E.encryptedOutput1.length + c7E.encryptedOutput2.length := by
  obtain ⟨_, t1, _, _, _, _, _, _, _, _, _, _, h13, _, _, _, _, _, h19⟩ :=
    c7_wire_layout c7P c7E false (by decide) (by decide) (by decide) (by decide)
      (by decide) (by decide) (by decide) (by decide) (by decide) (by decide)
      (by decide) (by decide) (by decide)
  exact ⟨t1, h13, h19⟩

end PrivacyCash
